import Mathlib

/-!
Verification of the MVCC reference engine, the two-phase-commit prewrite
post-processing, and the region-cache key location of a TiKV client library,
via a shallow embedding of the Go source.

Byte strings are `List Nat` (each element one byte).  The leveldb store of
`MVCCLevelDB` is embedded per user key: iterating the store from
`mvccEncode key lockVer` yields the lock slot of `key` first and then the
write records of `key` in descending version order, so a per-key state is a
possible lock plus a version-descending list of write records, and the whole
store is an association list from user key to per-key state.  Every write
record is stored at storage version equal to its `commitTS`
(`commitLock` and `writeRollback` both encode the record at that version),
so write-record insertion is keyed by `commitTS`.
-/

/-- A byte string (user key or value). -/
abbrev Bytes := List Nat

/-- `kvrpcpb.Op` as used by mutations and lock records. -/
inductive MvccOp where
  | put
  | del
  | lockOp
  | insert
  | checkNotExists
  | pessimisticLock
deriving DecidableEq, Repr

/-- `mvccValueType` of a write record. -/
inductive MvccValueType where
  | typePut
  | typeDelete
  | typeLock
  | typeRollback
deriving DecidableEq, Repr

/-- `kvrpcpb.Assertion` on a mutation. -/
inductive MvccAssertion where
  | assertNone
  | assertExist
  | assertNotExist
deriving DecidableEq, Repr

/-- `kvrpcpb.AssertionLevel` of a prewrite request. -/
inductive AssertionLevel where
  | off
  | fast
  | strict
deriving DecidableEq, Repr

/-- `kvrpcpb.IsolationLevel`. -/
inductive IsoLevel where
  | si
  | rc
deriving DecidableEq, Repr

/-- `kvrpcpb.Action` returned by `CheckTxnStatus`. -/
inductive TxnAction where
  | noAction
  | ttlExpireRollback
  | ttlExpirePessimisticRollback
  | lockNotExistRollback
  | minCommitTSPushed
  | lockNotExistDoNothing
deriving DecidableEq, Repr

/-- `mvccLock`: the lock record stored at the lock slot of a key. -/
structure MvccLock where
  startTS : Nat
  primary : Bytes
  value : Bytes
  op : MvccOp
  ttl : Nat
  txnSize : Nat
  forUpdateTS : Nat
  minCommitTS : Nat
deriving DecidableEq, Repr

/-- `mvccValue`: a committed write record of a key. -/
structure MvccValue where
  valueType : MvccValueType
  startTS : Nat
  commitTS : Nat
  value : Bytes
deriving DecidableEq, Repr

/-- `kvrpcpb.Mutation`. -/
structure Mutation where
  op : MvccOp
  key : Bytes
  value : Bytes
  assertion : MvccAssertion
deriving DecidableEq, Repr

/-- The errors produced by the MVCC reference engine operations. -/
inductive MvccErr where
  | locked (lock : MvccLock) (key : Bytes)
  | retryableTxnNotFound
  | commitTSExpired (startTS attemptedCommitTS : Nat) (key : Bytes) (minCommitTS : Nat)
  | alreadyCommitted (commitTS : Nat)
  | txnNotFound (startTS : Nat) (primaryKey : Bytes)
  | keyAlreadyExist (key : Bytes)
  | conflict (startTS conflictTS conflictCommitTS : Nat) (key : Bytes)
  | alreadyRollbacked (startTS : Nat) (key : Bytes)
  | assertionFailed (startTS : Nat) (key : Bytes) (assertion : MvccAssertion)
      (existingStartTS existingCommitTS : Nat)
  | abortPessimisticLockNotFound
deriving DecidableEq, Repr

/-- The state of one user key in the store: the optional lock record at the
lock slot, and the write records in descending storage-version order
(storage version = `commitTS` at every write site of the source). -/
structure KeyState where
  lock : Option MvccLock
  writes : List MvccValue
deriving DecidableEq, Repr

/-- The empty per-key state. -/
def KeyState.empty : KeyState := ⟨none, []⟩

/-- The whole store: association list from user key to per-key state.
Keys absent from the list are in state `KeyState.empty`. -/
abbrev MvccState := List (Bytes × KeyState)

/-- Look up the state of a user key (empty if absent). -/
def getKeyState (s : MvccState) (k : Bytes) : KeyState :=
  match s.find? (fun p => p.1 = k) with
  | some p => p.2
  | none => KeyState.empty

/-- Replace (or add) the state of one user key. -/
def setKeyState : MvccState → Bytes → KeyState → MvccState
  | [], k, ks => [(k, ks)]
  | p :: rest, k, ks =>
    if p.1 = k then (k, ks) :: rest else p :: setKeyState rest k ks

/-- `batch.Put(mvccEncode(key, v.commitTS), v)` on a version-descending
write-record list: insert keeping descending order, overwriting a record
already stored at the same version. -/
def insertWrite (v : MvccValue) : List MvccValue → List MvccValue
  | [] => [v]
  | w :: rest =>
    if w.commitTS < v.commitTS then v :: w :: rest
    else if w.commitTS = v.commitTS then v :: rest
    else w :: insertWrite v rest

/-- Decidable equality of `Except` results, for evaluating the engine on
concrete inputs. -/
instance exceptDecEq {e a : Type} [DecidableEq e] [DecidableEq a] :
    DecidableEq (Except e a) := fun x y =>
  match x, y with
  | .error e1, .error e2 =>
    if h : e1 = e2 then isTrue (by rw [h]) else isFalse (by intro hh; cases hh; exact h rfl)
  | .ok a1, .ok a2 =>
    if h : a1 = a2 then isTrue (by rw [h]) else isFalse (by intro hh; cases hh; exact h rfl)
  | .error _, .ok _ => isFalse (by intro hh; cases hh)
  | .ok _, .error _ => isFalse (by intro hh; cases hh)

/-! ## MVCC key codec (`mvccEncode` / `mvccDecode`)

`mvccEncode(key, ver) = codec.EncodeBytes(key) ++ codec.EncodeUintDesc(ver)`.
The `codec` package is not among the provided source files; it is modelled
below from the spec's description of the on-disk key layout
(`encode_bytes_asc(K) ∥ encode_u64_desc(ver)`): the ascending
memcomparable group encoding (groups of 8 bytes, each followed by a marker
byte; a final group padded with zero bytes and marker `255 - padCount`) and
the descending big-endian encoding of the bitwise complement of a `u64`. -/

/-- Modelled from the spec: `codec.EncodeBytes`, the ascending memcomparable
byte-string encoding (groups of 8 data bytes followed by a marker byte;
the final, possibly empty, group is padded with zeros and its marker is
`255 - padCount`). -/
def encGroups (data : List Nat) : List Nat :=
  if h : 8 ≤ data.length then
    data.take 8 ++ (255 :: encGroups (data.drop 8))
  else
    data ++ List.replicate (8 - data.length) 0 ++ [255 - (8 - data.length)]
termination_by data.length
decreasing_by
  simp only [List.length_drop]
  omega

/-- Modelled from the spec: `codec.DecodeBytes` with an accumulator, the
inverse of `encGroups`.  Returns the remaining bytes and the decoded
byte string, or `none` on an invalid encoding. -/
def decGroups (b : List Nat) (acc : List Nat) : Option (List Nat × List Nat) :=
  if _h : b.length < 9 then none
  else
    let group := b.take 8
    let marker := b.getD 8 0
    let padCount := if marker = 255 then 0 else 255 - marker
    if 8 < padCount then none
    else
      if marker = 255 then
        decGroups (b.drop 9) (acc ++ group)
      else
        if (group.drop (8 - padCount)).all (fun x => x = 0) then
          some (b.drop 9, acc ++ group.take (8 - padCount))
        else none
termination_by b.length
decreasing_by
  simp only [List.length_drop]
  omega

/-- Big-endian byte list of a natural number, `n` bytes wide. -/
def toBE : Nat → Nat → List Nat
  | 0, _ => []
  | n + 1, x => toBE n (x / 256) ++ [x % 256]

/-- Value of a big-endian byte list. -/
def fromBE (l : List Nat) : Nat :=
  l.foldl (fun a b => a * 256 + b) 0

/-- Modelled from the spec: `codec.EncodeUintDesc`, the 8-byte big-endian
encoding of the bitwise complement of a `u64`. -/
def encodeUintDesc (v : Nat) : List Nat :=
  toBE 8 ((2 ^ 64 - 1) - v % 2 ^ 64)

/-- Modelled from the spec: `codec.DecodeUintDesc`, the inverse of
`encodeUintDesc`.  Returns the remaining bytes and the decoded value. -/
def decodeUintDesc (b : List Nat) : Option (List Nat × Nat) :=
  if b.length < 8 then none
  else some (b.drop 8, (2 ^ 64 - 1) - fromBE (b.take 8))

/-- `mvccEncode`: the storage key of a user key at a version. -/
def mvccEncode (key : Bytes) (ver : Nat) : List Nat :=
  encGroups key ++ encodeUintDesc ver

/-- `mvccDecode`: parse the user key and version of an encoded key; an
encoded key with no version suffix is a meta key with version 0; trailing
bytes after the version are invalid. -/
def mvccDecode (encodedKey : List Nat) : Option (Bytes × Nat) :=
  match decGroups encodedKey [] with
  | none => none
  | some (remainBytes, key) =>
    if remainBytes.length = 0 then some (key, 0)
    else
      match decodeUintDesc remainBytes with
      | none => none
      | some (rest, ver) =>
        if rest.length ≠ 0 then none
        else some (key, ver)

/-! ## MVCC engine: Get -/

/-- Modelled from the spec: `mvccLock.check` (defined in a source file not
provided) — under snapshot isolation a read at `ts` fails with a `Locked`
error when the lock is visible, i.e. `lock.ts ≤ start_ts` and the lock's
`start_ts` is not among the caller's resolved locks; otherwise the read
proceeds with its timestamp unchanged. -/
def MvccLock.check (l : MvccLock) (ts : Nat) (key : Bytes) (resolvedLocks : List Nat) :
    Except MvccErr Nat :=
  if l.startTS ≤ ts ∧ l.startTS ∉ resolvedLocks then .error (.locked l key)
  else .ok ts

/-- The write-record walk of `getValue`: skip `Rollback` and `Lock` records
and return the first `Put` (its value) or `Delete` (not-found) record with
`commitTS ≤ startTS`. -/
def getValueWalk (startTS : Nat) : List MvccValue → Option Bytes
  | [] => none
  | v :: rest =>
    if v.valueType = .typeRollback ∨ v.valueType = .typeLock then
      getValueWalk startTS rest
    else if v.commitTS ≤ startTS then
      if v.valueType = .typeDelete then none else some v.value
    else getValueWalk startTS rest

/-- `getValue` on the state of one key: check the lock slot (under `SI`
isolation only), then walk the write records. -/
def mvccGetValue (ks : KeyState) (key : Bytes) (startTS : Nat) (isoLevel : IsoLevel)
    (resolvedLocks : List Nat) : Except MvccErr (Option Bytes) :=
  match ks.lock with
  | some l =>
    if isoLevel = .si then
      match l.check startTS key resolvedLocks with
      | .error e => .error e
      | .ok ts => .ok (getValueWalk ts ks.writes)
    else .ok (getValueWalk startTS ks.writes)
  | none => .ok (getValueWalk startTS ks.writes)

/-- `MVCCLevelDB.Get`. -/
def mvccGet (s : MvccState) (key : Bytes) (startTS : Nat) (isoLevel : IsoLevel)
    (resolvedLocks : List Nat) : Except MvccErr (Option Bytes) :=
  mvccGetValue (getKeyState s key) key startTS isoLevel resolvedLocks

/-! ## MVCC engine: Commit / Rollback -/

/-- `getTxnCommitInfo`: the first write record of the key whose `startTS`
matches. -/
def getTxnCommitInfo (ws : List MvccValue) (startTS : Nat) : Option MvccValue :=
  ws.find? (fun v => v.startTS = startTS)

/-- The write record produced by `commitLock`: its type corresponds to the
lock's op (`Put → typePut`, `Lock → typeLock`, anything else →
`typeDelete`) and it carries the lock's value. -/
def commitLockValue (l : MvccLock) (startTS commitTS : Nat) : MvccValue :=
  { valueType :=
      if l.op = .put then .typePut
      else if l.op = .lockOp then .typeLock
      else .typeDelete
  , startTS := startTS
  , commitTS := commitTS
  , value := l.value }

/-- The lock-missing / lock-mismatched fallback of `commitKey`: check the
commit information of this transaction. -/
def commitKeyFallback (ks : KeyState) (startTS : Nat) : Except MvccErr KeyState :=
  match getTxnCommitInfo ks.writes startTS with
  | some c =>
    if c.valueType ≠ .typeRollback then .ok ks
    else .error .retryableTxnNotFound
  | none => .error .retryableTxnNotFound

/-- `commitKey`. -/
def commitKey (ks : KeyState) (key : Bytes) (startTS commitTS : Nat) :
    Except MvccErr KeyState :=
  match ks.lock with
  | some l =>
    if l.startTS ≠ startTS then commitKeyFallback ks startTS
    else if commitTS < l.minCommitTS then
      .error (.commitTSExpired startTS commitTS key l.minCommitTS)
    else .ok ⟨none, insertWrite (commitLockValue l startTS commitTS) ks.writes⟩
  | none => commitKeyFallback ks startTS

/-- The Rollback tombstone written by `writeRollback`: a `typeRollback`
record with `startTS = commitTS`. -/
def rollbackRecord (startTS : Nat) : MvccValue :=
  { valueType := .typeRollback, startTS := startTS, commitTS := startTS, value := [] }

/-- The lock-missing / lock-mismatched fallback of `rollbackKey`: check the
commit information of this transaction; write the tombstone only when the
transaction was never prewritten. -/
def rollbackKeyFallback (ks : KeyState) (startTS : Nat) : Except MvccErr KeyState :=
  match getTxnCommitInfo ks.writes startTS with
  | some c =>
    if c.valueType ≠ .typeRollback then .error (.alreadyCommitted c.commitTS)
    else .ok ks
  | none => .ok ⟨ks.lock, insertWrite (rollbackRecord startTS) ks.writes⟩

/-- `rollbackKey`. -/
def rollbackKey (ks : KeyState) (startTS : Nat) : Except MvccErr KeyState :=
  match ks.lock with
  | some l =>
    if l.startTS = startTS then
      .ok ⟨none, insertWrite (rollbackRecord startTS) ks.writes⟩
    else rollbackKeyFallback ks startTS
  | none => rollbackKeyFallback ks startTS

/-- `pessimisticRollbackKey`: delete the lock only when it is this
transaction's pessimistic lock with `forUpdateTS` not newer than the
request's. -/
def pessimisticRollbackKey (ks : KeyState) (startTS forUpdateTS : Nat) : KeyState :=
  match ks.lock with
  | some l =>
    if l.op = .pessimisticLock ∧ l.startTS = startTS ∧ l.forUpdateTS ≤ forUpdateTS then
      ⟨none, ks.writes⟩
    else ks
  | none => ks

/-! ## MVCC engine: CheckTxnStatus -/

/-- Modelled from the spec: `oracle.ExtractPhysical` (defined outside the
provided source files) — a timestamp encodes physical milliseconds in the
bits above an 18-bit logical counter. -/
def extractPhysical (ts : Nat) : Nat := ts / 2 ^ 18

/-- `math.MaxUint64`, the sentinel `caller_start_ts` of an autocommit
point-get. -/
def maxUint64 : Nat := 2 ^ 64 - 1

/-- The `(ttl, commitTS, action)` result of `CheckTxnStatus`. -/
structure TxnStatus where
  ttl : Nat
  commitTS : Nat
  action : TxnAction
deriving DecidableEq, Repr

/-- The lock-missing / lock-mismatched fallback of `CheckTxnStatus`. -/
def checkTxnStatusFallback (ks : KeyState) (primaryKey : Bytes) (lockTS : Nat)
    (rollbackIfNotExist resolvingPessimisticLock : Bool) :
    Except MvccErr (TxnStatus × KeyState) :=
  match getTxnCommitInfo ks.writes lockTS with
  | some c =>
    if c.valueType ≠ .typeRollback then .ok (⟨0, c.commitTS, .noAction⟩, ks)
    else .ok (⟨0, 0, .noAction⟩, ks)
  | none =>
    if rollbackIfNotExist then
      if resolvingPessimisticLock then .ok (⟨0, 0, .lockNotExistDoNothing⟩, ks)
      else
        .ok (⟨0, 0, .lockNotExistRollback⟩,
          ⟨ks.lock, insertWrite (rollbackRecord lockTS) ks.writes⟩)
    else .error (.txnNotFound lockTS primaryKey)

/-- `MVCCLevelDB.CheckTxnStatus` on the state of the primary key; returns
the status and the resulting state of that key. -/
def checkTxnStatus (ks : KeyState) (primaryKey : Bytes)
    (lockTS callerStartTS currentTS : Nat)
    (rollbackIfNotExist resolvingPessimisticLock : Bool) :
    Except MvccErr (TxnStatus × KeyState) :=
  match ks.lock with
  | some l =>
    if l.startTS = lockTS then
      if extractPhysical l.startTS + l.ttl < extractPhysical currentTS then
        if resolvingPessimisticLock ∧ l.op = .pessimisticLock then
          .ok (⟨0, 0, .ttlExpirePessimisticRollback⟩,
            pessimisticRollbackKey ks l.startTS l.forUpdateTS)
        else
          .ok (⟨0, 0, .ttlExpireRollback⟩,
            ⟨none, insertWrite (rollbackRecord lockTS) ks.writes⟩)
      else if callerStartTS = maxUint64 then
        .ok (⟨l.ttl, 0, .minCommitTSPushed⟩, ks)
      else if 0 < l.minCommitTS then
        if l.minCommitTS < callerStartTS + 1 then
          let pushed := if callerStartTS + 1 < currentTS then currentTS else callerStartTS + 1
          .ok (⟨l.ttl, 0, .minCommitTSPushed⟩,
            ⟨some { l with minCommitTS := pushed }, ks.writes⟩)
        else .ok (⟨l.ttl, 0, .minCommitTSPushed⟩, ks)
      else .ok (⟨l.ttl, 0, .noAction⟩, ks)
    else checkTxnStatusFallback ks primaryKey lockTS rollbackIfNotExist resolvingPessimisticLock
  | none => checkTxnStatusFallback ks primaryKey lockTS rollbackIfNotExist resolvingPessimisticLock

/-! ## MVCC engine: Prewrite -/

/-- One iteration of the conflict-and-assertion walk of
`checkConflictValue`: `cur` is the record just decoded, `rest` the
remaining records of the key; the four `need*` flags and `retVal` mirror
the loop state of the source. -/
def ccvLoop (m : Mutation) (startTS : Nat) (getVal : Bool) (al : AssertionLevel)
    (needGetVal needCheckSNEPL needCheckAssertPW needCheckRollback : Bool)
    (retVal : Option Bytes) (cur : MvccValue) (rest : List MvccValue) :
    Except MvccErr (Option Bytes) :=
  if needCheckRollback ∧ cur.valueType = .typeRollback ∧ cur.commitTS = startTS then
    .error (.alreadyRollbacked startTS m.key)
  else
    let needCheckRollback' := needCheckRollback && !decide (cur.commitTS < startTS)
    if (cur.valueType = .typePut ∨ cur.valueType = .typeLock) ∧ needCheckSNEPL then
      .error (.assertionFailed startTS m.key m.assertion cur.startTS cur.commitTS)
    else if (cur.valueType = .typePut ∨ cur.valueType = .typeLock) ∧
        needCheckAssertPW ∧ m.assertion = .assertNotExist then
      .error (.assertionFailed startTS m.key m.assertion cur.startTS cur.commitTS)
    else
      let needCheckSNEPL' := if cur.valueType = .typeDelete then false else needCheckSNEPL
      let hit := needGetVal ∧ (cur.valueType = .typeDelete ∨ cur.valueType = .typePut)
      let retVal' := if hit then some cur.value else retVal
      let needGetVal' := if hit then false else needGetVal
      if !needCheckSNEPL' && !needGetVal' && !needCheckRollback' then
        .ok (if getVal then retVal' else none)
      else
        match rest with
        | [] =>
          if m.assertion = .assertExist ∧ al ≠ .off then
            .error (.assertionFailed startTS m.key m.assertion 0 0)
          else .ok (if getVal then retVal' else none)
        | v :: rest' =>
          ccvLoop m startTS getVal al needGetVal' needCheckSNEPL' needCheckAssertPW
            needCheckRollback' retVal' v rest'

/-- `checkConflictValue` over the write records of the mutated key. -/
def checkConflictValue (ws : List MvccValue) (m : Mutation) (forUpdateTS startTS : Nat)
    (getVal : Bool) (al : AssertionLevel) : Except MvccErr (Option Bytes) :=
  match ws with
  | [] =>
    if m.assertion = .assertExist ∧ al ≠ .off ∧ m.op ≠ .pessimisticLock then
      .error (.assertionFailed startTS m.key m.assertion 0 0)
    else .ok none
  | v :: rest =>
    if forUpdateTS < v.commitTS then
      .error (.conflict forUpdateTS v.startTS v.commitTS m.key)
    else
      ccvLoop m startTS getVal al getVal
        (decide (m.assertion = .assertNotExist ∧ m.op = .pessimisticLock))
        (decide (m.assertion ≠ .assertNone ∧ m.op ≠ .pessimisticLock ∧ al ≠ .off))
        true none v rest

/-- The lock record installed by `prewriteMutation` (op `Insert` is stored
as `Put`; `minCommitTS` is written on the primary lock only). -/
def mkPrewriteLock (m : Mutation) (startTS : Nat) (primary : Bytes)
    (ttl txnSize minCommitTS : Nat) : MvccLock :=
  { startTS := startTS
  , primary := primary
  , value := m.value
  , op := if m.op = .insert then .put else m.op
  , ttl := ttl
  , txnSize := txnSize
  , forUpdateTS := 0
  , minCommitTS := if primary = m.key then minCommitTS else 0 }

/-- `prewriteMutation` on the state of the mutated key; returns the lock put
into the write batch (`none` when the idempotent-retry path writes
nothing). -/
def prewriteMutation (ks : KeyState) (m : Mutation) (startTS : Nat) (primary : Bytes)
    (ttl txnSize : Nat) (isPessimisticLock : Bool) (minCommitTS : Nat)
    (al : AssertionLevel) : Except MvccErr (Option MvccLock) :=
  match ks.lock with
  | some l =>
    if l.startTS ≠ startTS then
      .error (.locked (if isPessimisticLock then { l with ttl := 0 } else l) m.key)
    else if l.op ≠ .pessimisticLock then .ok none
    else
      let ttl1 := if ttl < l.ttl then l.ttl else ttl
      let mct1 := if minCommitTS < l.minCommitTS then l.minCommitTS else minCommitTS
      match checkConflictValue ks.writes m startTS startTS false al with
      | .error e => .error e
      | .ok _ => .ok (some (mkPrewriteLock m startTS primary ttl1 txnSize mct1))
  | none =>
    if isPessimisticLock then .error .abortPessimisticLockNotFound
    else
      match checkConflictValue ks.writes m startTS startTS false al with
      | .error e => .error e
      | .ok _ => .ok (some (mkPrewriteLock m startTS primary ttl txnSize minCommitTS))

/-- `kvrpcpb.PrewriteRequest` (the fields `MVCCLevelDB.Prewrite` reads). -/
structure PrewriteReq where
  mutations : List Mutation
  primaryLock : Bytes
  startVersion : Nat
  forUpdateTs : Nat
  lockTtl : Nat
  txnSize : Nat
  isPessimisticLock : List Bool
  minCommitTs : Nat
  assertionLevel : AssertionLevel
  resolvedLocks : List Nat
deriving Repr

/-- One iteration of the mutation loop of `MVCCLevelDB.Prewrite` for the
`i`-th mutation `m`: the first component is the entry appended to the
error list (`none` when the iteration appends nothing, i.e. a successful
`CheckNotExists`), the second the lock put into the write batch.  Every
read goes against the store `s`, never against the pending batch. -/
def prewriteOne (s : MvccState) (req : PrewriteReq) (i : Nat) (m : Mutation) :
    Option (Option MvccErr) × Option (Bytes × MvccLock) :=
  let preCheck : Option (Option MvccErr) :=
    if (m.op = .insert ∨ m.op = .checkNotExists) ∧ req.forUpdateTs = 0 then
      match mvccGet s m.key req.startVersion .si req.resolvedLocks with
      | .error e => some (some e)
      | .ok (some _) => some (some (.keyAlreadyExist m.key))
      | .ok none => none
    else none
  match preCheck with
  | some e => (some e, none)
  | none =>
    if m.op = .checkNotExists then (none, none)
    else
      let isPess := !req.isPessimisticLock.isEmpty && req.isPessimisticLock.getD i false
      match prewriteMutation (getKeyState s m.key) m req.startVersion req.primaryLock
          req.lockTtl req.txnSize isPess req.minCommitTs req.assertionLevel with
      | .error e => (some (some e), none)
      | .ok o => (some none, o.map (fun l => (m.key, l)))

/-- The mutation loop of `MVCCLevelDB.Prewrite`: accumulate the error list
and the batched lock puts, in mutation order. -/
def prewriteLoop (s : MvccState) (req : PrewriteReq) (i : Nat) :
    List Mutation → List (Option MvccErr) × List (Bytes × MvccLock)
  | [] => ([], [])
  | m :: rest =>
    let one := prewriteOne s req i m
    let further := prewriteLoop s req (i + 1) rest
    (one.1.toList ++ further.1, one.2.toList ++ further.2)

/-- Apply the batched lock puts to the store. -/
def applyLockBatch (s : MvccState) (batch : List (Bytes × MvccLock)) : MvccState :=
  batch.foldl (fun acc p => setKeyState acc p.1 ⟨some p.2, (getKeyState acc p.1).writes⟩) s

/-- `MVCCLevelDB.Prewrite`: run the mutation loop; the batch is written to
the store only when no mutation produced an error. -/
def mvccPrewrite (req : PrewriteReq) (s : MvccState) :
    List (Option MvccErr) × MvccState :=
  let r := prewriteLoop s req 0 req.mutations
  if r.1.any (fun e => e.isSome) then (r.1, s)
  else (r.1, applyLockBatch s r.2)

/-! ## Two-phase committer: prewrite request construction and response
post-processing (`txnkv/transaction/prewrite.go`).

Failpoints (`mockZeroCommitTS`, `twoPCShortLockTTL`,
`assertionSkipCheckFromPrewrite`, `invalidMaxCommitTS`) are disabled
outside test builds and are not modelled. -/

/-- The committer state read by `buildPrewriteRequest` and mutated by
`handleSingleBatch`. -/
structure Committer where
  startTS : Nat
  forUpdateTS : Nat
  minCommitTS : Nat
  maxCommitTS : Nat
  lockTTL : Nat
  primaryKey : Bytes
  useAsyncCommit : Bool
  useOnePC : Bool
  onePCCommitTS : Nat
deriving DecidableEq, Repr

/-- The `min_commit_ts` computation of `buildPrewriteRequest`: use
`forUpdateTS + 1` when `forUpdateTS > 0` and `forUpdateTS ≥ c.minCommitTS`,
else `startTS + 1` when `startTS ≥ c.minCommitTS`, else keep
`c.minCommitTS`. -/
def computeMinCommitTS (minCommitTS startTS forUpdateTS : Nat) : Nat :=
  if 0 < forUpdateTS ∧ minCommitTS ≤ forUpdateTS then forUpdateTS + 1
  else if minCommitTS ≤ startTS then startTS + 1
  else minCommitTS

/-- The client-side `kvrpcpb.PrewriteRequest` fields set by
`buildPrewriteRequest`. -/
structure ClientPrewriteReq where
  startVersion : Nat
  primaryLock : Bytes
  lockTtl : Nat
  forUpdateTs : Nat
  txnSize : Nat
  minCommitTs : Nat
  maxCommitTs : Nat
  useAsyncCommit : Bool
  tryOnePc : Bool
deriving DecidableEq, Repr

/-- `twoPhaseCommitter.buildPrewriteRequest` (the request fields;
`use_async_commit` and `try_1pc` mirror the committer flags, the secondary
list itself is carried on the primary batch only). -/
def buildPrewriteRequest (c : Committer) (txnSize : Nat) : ClientPrewriteReq :=
  { startVersion := c.startTS
  , primaryLock := c.primaryKey
  , lockTtl := c.lockTTL
  , forUpdateTs := c.forUpdateTS
  , txnSize := txnSize
  , minCommitTs := computeMinCommitTS c.minCommitTS c.startTS c.forUpdateTS
  , maxCommitTs := c.maxCommitTS
  , useAsyncCommit := c.useAsyncCommit
  , tryOnePc := c.useOnePC }

/-- How `actionPrewrite.handleSingleBatch` leaves a batch whose response
carried no region error and no key errors. -/
inductive PrewriteBatchOutcome where
  /-- `handleSingleBatch` returns nil: the batch is finished. -/
  | done
  /-- the error `MinCommitTs must be 0 when 1pc falls back to 2pc`. -/
  | errMinCommitTSNotZero
  /-- `logutil.Fatal`: a 1PC commit ts was already recorded. -/
  | fatalOnePCTwice
  /-- `logutil.Fatal`: the server committed a non-1PC transaction with the
  1PC protocol. -/
  | fatalNonOnePCCommitTS
deriving DecidableEq, Repr

/-- The post-processing of a prewrite response with no region error and an
empty key-error list (`handleSingleBatch`, success path): the 1PC branch,
the unexpected-1PC check, and the async-commit branch.  `noFallBack` is
the testing knob read in the async branch.  Returns the outcome and the
updated committer. -/
def handlePrewriteResponse (c : Committer) (noFallBack : Bool)
    (respOnePCCommitTS respMinCommitTS : Nat) : PrewriteBatchOutcome × Committer :=
  if c.useOnePC then
    if respOnePCCommitTS = 0 then
      if respMinCommitTS ≠ 0 then (.errMinCommitTSNotZero, c)
      else (.done, { c with useOnePC := false, useAsyncCommit := false })
    else if c.onePCCommitTS ≠ 0 then (.fatalOnePCTwice, c)
    else (.done, { c with onePCCommitTS := respOnePCCommitTS })
  else if respOnePCCommitTS ≠ 0 then (.fatalNonOnePCCommitTS, c)
  else if c.useAsyncCommit then
    if respMinCommitTS = 0 then
      if noFallBack then (.done, c)
      else (.done, { c with useAsyncCommit := false })
    else if c.minCommitTS < respMinCommitTS then
      (.done, { c with minCommitTS := respMinCommitTS })
    else (.done, c)
  else (.done, c)

/-! ## Region cache: `LocateKey` (`internal/locate/region_cache.go`). -/

/-- `bytes.Compare`: lexicographic comparison of byte strings. -/
def bytesCmp : Bytes → Bytes → Ordering
  | [], [] => .eq
  | [], _ :: _ => .lt
  | _ :: _, [] => .gt
  | a :: as1, b :: bs1 =>
    if a < b then .lt else if b < a then .gt else bytesCmp as1 bs1

/-- `contains`: `startKey ≤ key < endKey`, an empty `endKey` being the
maximum key. -/
def containsRange (startKey endKey key : Bytes) : Bool :=
  (bytesCmp startKey key != Ordering.gt) &&
    ((bytesCmp key endKey == Ordering.lt) || endKey.isEmpty)

/-- A cached region: the immutable meta range plus the fields
`searchCachedRegion` and `findRegionByKey` read (`lastAccess` for the TTL
check, `needReload` for `syncFlag ≠ updated`). -/
structure CacheRegion where
  id : Nat
  ver : Nat
  confVer : Nat
  startKey : Bytes
  endKey : Bytes
  lastAccess : Int
  needReload : Bool
deriving DecidableEq, Repr

/-- `regionCacheTTLSec`: the max idle time for regions in the cache. -/
def regionCacheTTLSec : Int := 600

/-- `Region.checkRegionCacheTTL`. -/
def checkRegionCacheTTL (r : CacheRegion) (ts : Int) : Bool :=
  ts - r.lastAccess ≤ regionCacheTTLSec

/-- `Region.Contains`: `startKey ≤ key < endKey` over the region meta. -/
def CacheRegion.containsKey (r : CacheRegion) (key : Bytes) : Bool :=
  containsRange r.startKey r.endKey key

/-- `Region.ContainsByEnd`: `startKey < key ≤ endKey` over the region
meta, an empty `endKey` being the maximum key. -/
def CacheRegion.containsByEnd (r : CacheRegion) (key : Bytes) : Bool :=
  (bytesCmp r.startKey key == Ordering.lt) &&
    ((bytesCmp key r.endKey != Ordering.gt) || r.endKey.isEmpty)

/-- The `DescendLessOrEqual` callback loop of `searchCachedRegion` over the
cached regions whose start key is `≤ key`, in descending start-key order:
skip an exact start-key match when `isEndKey`, skip regions failing the
TTL check, stop at the first remaining region. -/
def descendLoop (ts : Int) (key : Bytes) (isEndKey : Bool) :
    List CacheRegion → Option CacheRegion
  | [] => none
  | r :: rest =>
    if isEndKey ∧ r.startKey = key then descendLoop ts key isEndKey rest
    else if !checkRegionCacheTTL r ts then descendLoop ts key isEndKey rest
    else some r

/-- `RegionCache.searchCachedRegion`: the cache is the b-tree's item list in
ascending start-key order; the candidate found by the descend loop is
returned only if its range contains the key. -/
def searchCachedRegion (cache : List CacheRegion) (ts : Int) (key : Bytes)
    (isEndKey : Bool) : Option CacheRegion :=
  let items := (cache.filter (fun r => bytesCmp r.startKey key != Ordering.gt)).reverse
  match descendLoop ts key isEndKey items with
  | some r =>
    if (!isEndKey && r.containsKey key) || (isEndKey && r.containsByEnd key) then some r
    else none
  | none => none

/-- `RegionCache.findRegionByKey`.  `pdRegion` is the result of
`loadRegion`, the PD lookup performed on a cache miss or a needed reload
(`none` models a load failure): on a miss its result is returned; on a
needed reload its result replaces the cached region, a failed load keeps
the cached region. -/
def findRegionByKey (cache : List CacheRegion) (ts : Int) (key : Bytes)
    (isEndKey : Bool) (pdRegion : Option CacheRegion) : Option CacheRegion :=
  match searchCachedRegion cache ts key isEndKey with
  | none => pdRegion
  | some r =>
    if r.needReload then
      match pdRegion with
      | some lr => some lr
      | none => some r
    else some r

/-- `KeyLocation`: the region identity and range returned by `LocateKey`. -/
structure KeyLocation where
  regionId : Nat
  startKey : Bytes
  endKey : Bytes
deriving DecidableEq, Repr

/-- `RegionCache.LocateKey`. -/
def locateKey (cache : List CacheRegion) (ts : Int) (key : Bytes)
    (pdRegion : Option CacheRegion) : Option KeyLocation :=
  (findRegionByKey cache ts key false pdRegion).map (fun r => ⟨r.id, r.startKey, r.endKey⟩)

/-! ## Claim C6: the `min_commit_ts` carried by a prewrite request -/

/-- C6 counterexample: with `c.minCommitTS = 0`, `startTS = 5`,
`forUpdateTS = 3`, the conditional chain of `buildPrewriteRequest` yields
`forUpdateTS + 1 = 4`, not `max(c.minCommitTS, max(startTS, forUpdateTS) + 1)
= 6` — the claim fails when `0 < forUpdateTS < startTS`. -/
theorem computeMinCommitTS_ne_max_cex :
    computeMinCommitTS 0 5 3 = 4 ∧ max 0 (max 5 3 + 1) = 6 := by decide

/-- C6 (amended): whenever `forUpdateTS = 0` or `startTS ≤ forUpdateTS`
(the invariant of a committer, whose `for_update_ts` is fetched after
`start_ts`), the request built by `buildPrewriteRequest` carries
`MinCommitTs = max(c.minCommitTS, max(startTS, forUpdateTS) + 1)`. -/
theorem buildPrewriteRequest_minCommitTs (c : Committer) (txnSize : Nat)
    (h : c.forUpdateTS = 0 ∨ c.startTS ≤ c.forUpdateTS) :
    (buildPrewriteRequest c txnSize).minCommitTs =
      max c.minCommitTS (max c.startTS c.forUpdateTS + 1) := by
  simp only [buildPrewriteRequest, computeMinCommitTS]
  split_ifs with h1 h2 <;> rcases h with h | h <;> omega

/-- C6 witness: the amended claim at a concrete committer. -/
theorem buildPrewriteRequest_minCommitTs_witness :
    ((0:Nat) = 0 ∨ (5:Nat) ≤ 0) ∧
      (buildPrewriteRequest ⟨5, 0, 0, 0, 10, [0], false, false, 0⟩ 1).minCommitTs =
        max 0 (max 5 0 + 1) :=
  ⟨Or.inl rfl, buildPrewriteRequest_minCommitTs ⟨5, 0, 0, 0, 10, [0], false, false, 0⟩ 1
    (Or.inl rfl)⟩

/-! ## Claim C5: 1PC response post-processing -/

/-- A committer that sent its batch with `try_1pc` set. -/
def c5Committer : Committer :=
  { startTS := 10, forUpdateTS := 0, minCommitTS := 0, maxCommitTS := 20, lockTTL := 5
  , primaryKey := [0], useAsyncCommit := true, useOnePC := true, onePCCommitTS := 0 }

/-- C5 counterexample: a response with `one_pc_commit_ts = 0` but
`min_commit_ts = 7 ≠ 0` makes `handleSingleBatch` return an error and
leave both the 1PC and the async-commit flag set — it does not demote and
continue as 2PC, contrary to the claim. -/
theorem handlePrewriteResponse_cex :
    handlePrewriteResponse c5Committer false 0 7 = (.errMinCommitTSNotZero, c5Committer) ∧
      (handlePrewriteResponse c5Committer false 0 7).2.useOnePC = true ∧
      (handlePrewriteResponse c5Committer false 0 7).2.useAsyncCommit = true := by
  decide

/-- C5 (amended): for a batch sent with `try_1pc` (committer flag
`useOnePC`) whose response has no key errors and no region error: if
`one_pc_commit_ts = 0` and the response's `min_commit_ts` is also 0, the
committer clears both its 1PC and its async-commit flag and continues as
ordinary 2PC; if `one_pc_commit_ts = 0` but `min_commit_ts ≠ 0`, it
returns an error without demoting; if `one_pc_commit_ts ≠ 0` and no 1PC
commit ts was recorded before, it records it and finishes the batch (a
second non-zero `one_pc_commit_ts` is fatal).  A non-zero
`one_pc_commit_ts` in a response to a request that did not set `try_1pc`
is fatal. -/
theorem handlePrewriteResponse_onePC (c : Committer) (noFallBack : Bool)
    (respOnePCCommitTS respMinCommitTS : Nat) (h1pc : c.useOnePC = true) :
    (respOnePCCommitTS = 0 → respMinCommitTS = 0 →
      handlePrewriteResponse c noFallBack respOnePCCommitTS respMinCommitTS =
        (.done, { c with useOnePC := false, useAsyncCommit := false })) ∧
    (respOnePCCommitTS = 0 → respMinCommitTS ≠ 0 →
      handlePrewriteResponse c noFallBack respOnePCCommitTS respMinCommitTS =
        (.errMinCommitTSNotZero, c)) ∧
    (respOnePCCommitTS ≠ 0 → c.onePCCommitTS = 0 →
      handlePrewriteResponse c noFallBack respOnePCCommitTS respMinCommitTS =
        (.done, { c with onePCCommitTS := respOnePCCommitTS })) ∧
    (respOnePCCommitTS ≠ 0 → c.onePCCommitTS ≠ 0 →
      handlePrewriteResponse c noFallBack respOnePCCommitTS respMinCommitTS =
        (.fatalOnePCTwice, c)) ∧
    (∀ c2 : Committer, c2.useOnePC = false → respOnePCCommitTS ≠ 0 →
      handlePrewriteResponse c2 noFallBack respOnePCCommitTS respMinCommitTS =
        (.fatalNonOnePCCommitTS, c2)) := by
  refine ⟨fun h0 hm => ?_, fun h0 hm => ?_, fun h0 hp => ?_, fun h0 hp => ?_,
    fun c2 h2 h0 => ?_⟩ <;>
    simp [handlePrewriteResponse, h1pc, *]

/-- C5 witness: the amended claim at concrete inputs (the demotion case and
the record case). -/
theorem handlePrewriteResponse_onePC_witness :
    handlePrewriteResponse c5Committer false 0 0 =
      (.done, { c5Committer with useOnePC := false, useAsyncCommit := false }) ∧
    handlePrewriteResponse c5Committer false 7 0 =
      (.done, { c5Committer with onePCCommitTS := 7 }) :=
  ⟨(handlePrewriteResponse_onePC c5Committer false 0 0 rfl).1 rfl rfl,
   (handlePrewriteResponse_onePC c5Committer false 7 0 rfl).2.2.1 (by decide) rfl⟩

/-! ## Claim C10: a failed Prewrite leaves the store unchanged -/

/-- C10: whenever any mutation of a prewrite request produced an error (the
returned error list contains a non-nil entry), `MVCCLevelDB.Prewrite`
returns the store completely unchanged: the accumulated write batch is
applied only when every mutation succeeded, so no lock record is
installed for any mutation of the request. -/
theorem mvccPrewrite_error_unchanged (req : PrewriteReq) (s : MvccState)
    (h : (mvccPrewrite req s).1.any (fun e => e.isSome) = true) :
    (mvccPrewrite req s).2 = s := by
  unfold mvccPrewrite at h ⊢
  by_cases hc : (prewriteLoop s req 0 req.mutations).1.any (fun e => e.isSome) = true
  · simp [hc]
  · simp [hc] at h

/-- A request whose only mutation hits another transaction's lock. -/
def c10Req : PrewriteReq :=
  { mutations := [⟨.put, [1], [9], .assertNone⟩]
  , primaryLock := [1], startVersion := 5, forUpdateTs := 0, lockTtl := 3, txnSize := 1
  , isPessimisticLock := [], minCommitTs := 0, assertionLevel := .off, resolvedLocks := [] }

/-- A store where key `[1]` is locked by transaction 3. -/
def c10Store : MvccState :=
  [([1], ⟨some ⟨3, [1], [], .put, 10, 1, 0, 0⟩, []⟩)]

/-- C10 witness: the failing request leaves the concrete store unchanged. -/
theorem mvccPrewrite_error_unchanged_witness :
    (mvccPrewrite c10Req c10Store).2 = c10Store :=
  mvccPrewrite_error_unchanged c10Req c10Store (by decide)

/-! ## Claim C9: `LocateKey` returns a region containing the key -/

/-- A region returned by the cache search passed the final containment
check of `searchCachedRegion`. -/
theorem searchCachedRegion_containsKey (cache : List CacheRegion) (ts : Int)
    (key : Bytes) (r : CacheRegion)
    (h : searchCachedRegion cache ts key false = some r) :
    r.containsKey key = true := by
  simp only [searchCachedRegion] at h
  split at h
  · split at h
    · rename_i hcond
      cases h
      simpa using hcond
    · exact absurd h (by simp)
  · exact absurd h (by simp)

/-- C9: for every cache state and key, when `LocateKey` returns a location,
the returned region's range contains the key: `start_key ≤ key` and
`key < end_key` (an empty end key denoting plus infinity).  The cached
candidate is guarded by the containment check of `searchCachedRegion`;
a region coming from a PD load contains the key by the PD contract
(hypothesis `hpd`). -/
theorem locateKey_contains (cache : List CacheRegion) (ts : Int) (key : Bytes)
    (pdRegion : Option CacheRegion) (loc : KeyLocation)
    (hpd : ∀ r, pdRegion = some r → containsRange r.startKey r.endKey key = true)
    (h : locateKey cache ts key pdRegion = some loc) :
    containsRange loc.startKey loc.endKey key = true := by
  unfold locateKey at h
  rw [Option.map_eq_some'] at h
  obtain ⟨r, hr, hloc⟩ := h
  subst hloc
  unfold findRegionByKey at hr
  cases hsc : searchCachedRegion cache ts key false with
  | none =>
    rw [hsc] at hr
    exact hpd r hr
  | some rc =>
    rw [hsc] at hr
    have hcont := searchCachedRegion_containsKey cache ts key rc hsc
    by_cases hnr : rc.needReload = true
    · simp only [hnr, if_pos] at hr
      cases hpd2 : pdRegion with
      | none =>
        rw [hpd2] at hr
        cases hr
        simpa [CacheRegion.containsKey] using hcont
      | some lr =>
        rw [hpd2] at hr
        cases hr
        exact hpd r (by rw [hpd2])
    · simp only [Bool.not_eq_true] at hnr
      simp only [hnr] at hr
      simp only [Bool.false_eq_true, if_false] at hr
      cases hr
      simpa [CacheRegion.containsKey] using hcont

/-- A fresh cached region covering the whole key space. -/
def c9Region : CacheRegion :=
  { id := 1, ver := 1, confVer := 1, startKey := [], endKey := [], lastAccess := 100
  , needReload := false }

/-- C9 witness: the claim at a concrete cache state and key. -/
theorem locateKey_contains_witness :
    containsRange ([] : Bytes) [] [5] = true :=
  locateKey_contains [c9Region] 100 [5] none ⟨1, [], []⟩
    (fun r hr => by cases hr) (by decide)

/-! ## Claim C8: the MVCC key codec round-trips -/

/-- Consuming one full group (8 data bytes, marker 255) of the encoding. -/
theorem decGroups_step (g : List Nat) (hg : g.length = 8) (r acc : List Nat) :
    decGroups (g ++ 255 :: r) acc = decGroups r (acc ++ g) := by
  rw [decGroups.eq_def]
  have hlen : (g ++ 255 :: r).length = 9 + r.length := by
    simp [hg]
    omega
  rw [dif_neg (by omega)]
  have hmarker : (g ++ 255 :: r).getD 8 0 = 255 := by
    rw [List.getD_append_right _ _ _ _ (show g.length ≤ 8 by omega)]
    simp [hg]
  have htake : (g ++ 255 :: r).take 8 = g := List.take_left' hg
  have hdrop : (g ++ 255 :: r).drop 9 = r := by
    have hb : g ++ 255 :: r = (g ++ [255]) ++ r := by simp
    rw [hb, List.drop_left' (by simp [hg])]
  simp only [hmarker, htake, hdrop]
  norm_num

/-- Consuming the final, padded group of the encoding. -/
theorem decGroups_pad (k : List Nat) (hk : k.length < 8) (tail acc : List Nat) :
    decGroups ((k ++ List.replicate (8 - k.length) 0 ++ [255 - (8 - k.length)]) ++ tail)
      acc = some (tail, acc ++ k) := by
  set g : List Nat := k ++ List.replicate (8 - k.length) 0 with hgdef
  have hg : g.length = 8 := by
    rw [hgdef]
    simp
    omega
  have hb : (k ++ List.replicate (8 - k.length) 0 ++ [255 - (8 - k.length)]) ++ tail
      = g ++ (255 - (8 - k.length)) :: tail := by simp [hgdef]
  rw [hb, decGroups.eq_def]
  have hlen : (g ++ (255 - (8 - k.length)) :: tail).length = 9 + tail.length := by
    simp [hg]
    omega
  rw [dif_neg (by omega)]
  have hmarker : (g ++ (255 - (8 - k.length)) :: tail).getD 8 0 = 255 - (8 - k.length) := by
    rw [List.getD_append_right _ _ _ _ (show g.length ≤ 8 by omega)]
    simp [hg]
  have htake : (g ++ (255 - (8 - k.length)) :: tail).take 8 = g := List.take_left' hg
  have hdrop : (g ++ (255 - (8 - k.length)) :: tail).drop 9 = tail := by
    have hb2 : g ++ (255 - (8 - k.length)) :: tail = (g ++ [255 - (8 - k.length)]) ++ tail := by
      simp
    rw [hb2, List.drop_left' (by simp [hg])]
  have hm255 : ¬ (255 - (8 - k.length) = 255) := by omega
  have hpad : 255 - (255 - (8 - k.length)) = 8 - k.length := by omega
  simp only [hmarker, htake, hdrop, if_neg hm255, hpad]
  rw [if_neg (by omega)]
  have h1 : 8 - (8 - k.length) = k.length := by omega
  have hgdrop : g.drop (8 - (8 - k.length)) = List.replicate (8 - k.length) 0 := by
    rw [h1, hgdef, List.drop_left]
  have hgtake : g.take (8 - (8 - k.length)) = k := by
    rw [h1, hgdef, List.take_left]
  rw [hgdrop, hgtake]
  simp [List.all_eq_true, List.mem_replicate]

/-- Decoding an encoded byte string followed by any tail recovers the byte
string and the tail (bounded induction on the byte-string length). -/
theorem decGroups_encGroups_le : ∀ (n : Nat) (k : List Nat), k.length ≤ n →
    ∀ (tail acc : List Nat),
      decGroups (encGroups k ++ tail) acc = some (tail, acc ++ k) := by
  intro n
  induction n with
  | zero =>
    intro k hk tail acc
    have hnil : k = [] := List.eq_nil_of_length_eq_zero (by omega)
    subst hnil
    rw [encGroups.eq_def, dif_neg (by simp)]
    exact decGroups_pad [] (by simp) tail acc
  | succ n ih =>
    intro k hk tail acc
    by_cases h8 : 8 ≤ k.length
    · rw [encGroups.eq_def, dif_pos h8]
      have hassoc : (k.take 8 ++ 255 :: encGroups (k.drop 8)) ++ tail
          = k.take 8 ++ 255 :: (encGroups (k.drop 8) ++ tail) := by simp
      rw [hassoc, decGroups_step (k.take 8) (by simp [List.length_take]; omega)]
      rw [ih (k.drop 8) (by simp [List.length_drop]; omega) tail (acc ++ k.take 8)]
      simp [List.append_assoc, List.take_append_drop]
    · rw [encGroups.eq_def, dif_neg h8]
      exact decGroups_pad k (by omega) tail acc

/-- `decGroups` inverts `encGroups` in the presence of any suffix. -/
theorem decGroups_encGroups (k tail acc : List Nat) :
    decGroups (encGroups k ++ tail) acc = some (tail, acc ++ k) :=
  decGroups_encGroups_le k.length k le_rfl tail acc

/-- `toBE` produces exactly `n` bytes. -/
theorem toBE_length (n : Nat) : ∀ x : Nat, (toBE n x).length = n := by
  induction n with
  | zero => intro x; simp [toBE]
  | succ n ih => intro x; simp [toBE, ih]

/-- `fromBE` inverts `toBE` for values below `256 ^ n`. -/
theorem fromBE_toBE (n : Nat) : ∀ x : Nat, x < 256 ^ n → fromBE (toBE n x) = x := by
  induction n with
  | zero =>
    intro x hx
    simp [toBE, fromBE]
    omega
  | succ n ih =>
    intro x hx
    have h1 : x / 256 < 256 ^ n := by
      rw [Nat.div_lt_iff_lt_mul (by norm_num)]
      calc x < 256 ^ (n + 1) := hx
        _ = 256 ^ n * 256 := by ring
    have h2 := ih (x / 256) h1
    simp only [toBE, fromBE, List.foldl_append, List.foldl] at h2 ⊢
    rw [h2]
    omega

/-- `decodeUintDesc` inverts `encodeUintDesc` in the presence of any
suffix. -/
theorem decodeUintDesc_encodeUintDesc (v : Nat) (tail : List Nat) :
    decodeUintDesc (encodeUintDesc v ++ tail) = some (tail, v % 2 ^ 64) := by
  unfold decodeUintDesc encodeUintDesc
  rw [if_neg (by rw [List.length_append, toBE_length]; omega)]
  rw [List.take_left' (toBE_length 8 _), List.drop_left' (toBE_length 8 _)]
  have hlt : (2 ^ 64 - 1) - v % 2 ^ 64 < 256 ^ 8 := by
    have := Nat.mod_lt v (show 0 < 2 ^ 64 by norm_num)
    norm_num
    omega
  rw [fromBE_toBE 8 _ hlt]
  have hv : (2 ^ 64 - 1) - ((2 ^ 64 - 1) - v % 2 ^ 64) = v % 2 ^ 64 := by
    have := Nat.mod_lt v (show 0 < 2 ^ 64 by norm_num)
    omega
  rw [hv]

/-- C8: `mvccDecode` inverts `mvccEncode` for every user key and every
`u64` version; decoding an arbitrary byte string either fails or yields a
key and a version; and a byte string with no version suffix decodes as a
meta key with version 0. -/
theorem mvccDecode_mvccEncode :
    (∀ (k : Bytes) (v : Nat), v < 2 ^ 64 → mvccDecode (mvccEncode k v) = some (k, v)) ∧
    (∀ b : List Nat, mvccDecode b = none ∨ ∃ key ver, mvccDecode b = some (key, ver)) ∧
    (∀ (b key : List Nat), decGroups b [] = some ([], key) →
      mvccDecode b = some (key, 0)) := by
  refine ⟨fun k v hv => ?_, fun b => ?_, fun b key h => ?_⟩
  · unfold mvccDecode mvccEncode
    rw [decGroups_encGroups]
    have h8 : (encodeUintDesc v).length = 8 := toBE_length 8 _
    have hd : decodeUintDesc (encodeUintDesc v) = some ([], v % 2 ^ 64) := by
      have h0 := decodeUintDesc_encodeUintDesc v []
      rwa [List.append_nil] at h0
    simp [h8, hd, Nat.mod_eq_of_lt hv]
    exact hv.trans_le (by norm_num)
  · cases h : mvccDecode b with
    | none => exact Or.inl rfl
    | some p => exact Or.inr ⟨p.1, p.2, rfl⟩
  · unfold mvccDecode
    rw [h]
    simp

/-- C8 witness: the round trip at a concrete key and version. -/
theorem mvccDecode_mvccEncode_witness :
    (5 : Nat) < 2 ^ 64 ∧ mvccDecode (mvccEncode [1, 2] 5) = some ([1, 2], 5) :=
  ⟨by norm_num, mvccDecode_mvccEncode.1 [1, 2] 5 (by norm_num)⟩

/-! ## Claim C1: `Get` semantics -/

/-- The claim-side reading of the write-record walk: the first `Put` or
`Delete` record (in the descending commit-ts order of the record list)
with `commitTS ≤ s` decides the result; `Rollback` and `Lock` records
never do. -/
def firstVisibleWrite (ws : List MvccValue) (s : Nat) : Option MvccValue :=
  ws.find? (fun v =>
    decide (v.valueType = .typePut ∨ v.valueType = .typeDelete) && decide (v.commitTS ≤ s))

/-- The recursive walk of `getValue` computes exactly the first visible
`Put`/`Delete` record. -/
theorem getValueWalk_eq_firstVisible (s : Nat) (ws : List MvccValue) :
    getValueWalk s ws =
      match firstVisibleWrite ws s with
      | some v => if v.valueType = .typeDelete then none else some v.value
      | none => none := by
  induction ws with
  | nil => rfl
  | cons v rest ih =>
    unfold firstVisibleWrite at ih ⊢
    rw [List.find?_cons]
    by_cases h1 : v.valueType = .typeRollback ∨ v.valueType = .typeLock
    · have hp : (decide (v.valueType = .typePut ∨ v.valueType = .typeDelete) &&
          decide (v.commitTS ≤ s)) = false := by
        rcases h1 with h | h <;> simp [h]
      rw [hp]
      simp only [getValueWalk, if_pos h1]
      exact ih
    · by_cases h2 : v.commitTS ≤ s
      · have hp : (decide (v.valueType = .typePut ∨ v.valueType = .typeDelete) &&
            decide (v.commitTS ≤ s)) = true := by
          cases hv : v.valueType <;> simp [hv, h2] <;> simp [hv] at h1
        rw [hp]
        simp only [getValueWalk, if_neg h1, if_pos h2]
      · have hp : (decide (v.valueType = .typePut ∨ v.valueType = .typeDelete) &&
            decide (v.commitTS ≤ s)) = false := by
          simp [h2]
        rw [hp]
        simp only [getValueWalk, if_neg h1, if_neg h2]
        exact ih

/-- C1: for every key state, start ts, isolation level and resolved-lock
list, `Get` returns a `Locked` error exactly when a lock exists, isolation
is snapshot isolation and the lock is visible (`lock.ts ≤ start_ts` and
not resolved); otherwise it returns the value of the first `Put` record
with `commitTS ≤ start_ts` in descending commit-ts order, not-found for
the first such `Delete` record, skipping every `Rollback` and `Lock`
record, and not-found when no such record exists. -/
theorem mvccGetValue_spec (ks : KeyState) (key : Bytes) (s : Nat) (iso : IsoLevel)
    (resolved : List Nat) :
    mvccGetValue ks key s iso resolved =
      match ks.lock with
      | some l =>
        if iso = .si ∧ l.startTS ≤ s ∧ l.startTS ∉ resolved then .error (.locked l key)
        else .ok (match firstVisibleWrite ks.writes s with
          | some v => if v.valueType = .typeDelete then none else some v.value
          | none => none)
      | none =>
        .ok (match firstVisibleWrite ks.writes s with
          | some v => if v.valueType = .typeDelete then none else some v.value
          | none => none) := by
  unfold mvccGetValue
  cases hl : ks.lock with
  | none => rw [getValueWalk_eq_firstVisible]
  | some l =>
    dsimp only
    by_cases hsi : iso = .si
    · rw [if_pos hsi]
      unfold MvccLock.check
      by_cases hvis : l.startTS ≤ s ∧ l.startTS ∉ resolved
      · rw [if_pos hvis, if_pos ⟨hsi, hvis⟩]
      · rw [if_neg hvis, if_neg (by tauto)]
        dsimp only
        rw [getValueWalk_eq_firstVisible]
    · rw [if_neg hsi, if_neg (by tauto), getValueWalk_eq_firstVisible]

/-! ## Claim C2: `Commit` per key -/

/-- C2: per key, `Commit(start_ts, commit_ts)` behaves as follows.  When the
lock is missing or carries a different `start_ts`, the write records are
consulted for one of this `start_ts`: a non-Rollback record makes the
commit idempotently successful (the state is unchanged), a Rollback
record or no record yields a retryable txn-not-found error.  When the
lock matches but `commit_ts < lock.minCommitTS`, the commit fails with
`CommitTsExpired` carrying `start_ts`, the attempted `commit_ts` and the
lock's `minCommitTS`.  Otherwise a write record of the type corresponding
to the lock's op is stored at `commit_ts` and the lock is deleted. -/
theorem commitKey_spec (ks : KeyState) (key : Bytes) (s c : Nat) :
    ((∀ l, ks.lock = some l → l.startTS ≠ s) →
      commitKey ks key s c =
        match getTxnCommitInfo ks.writes s with
        | some w =>
          if w.valueType ≠ .typeRollback then .ok ks else .error .retryableTxnNotFound
        | none => .error .retryableTxnNotFound) ∧
    (∀ l, ks.lock = some l → l.startTS = s →
      (c < l.minCommitTS →
        commitKey ks key s c = .error (.commitTSExpired s c key l.minCommitTS)) ∧
      (l.minCommitTS ≤ c →
        commitKey ks key s c =
          .ok ⟨none, insertWrite (commitLockValue l s c) ks.writes⟩)) := by
  constructor
  · intro hmiss
    unfold commitKey
    cases hl : ks.lock with
    | none => rfl
    | some l => dsimp only; rw [if_pos (hmiss l hl)]; rfl
  · intro l hl hs
    constructor
    · intro hexp
      unfold commitKey
      rw [hl]
      dsimp only
      rw [if_neg (by omega), if_pos hexp]
    · intro hok
      unfold commitKey
      rw [hl]
      dsimp only
      rw [if_neg (by omega), if_neg (by omega)]

/-- A key state carrying a matching prewrite lock. -/
def c2KeyState : KeyState :=
  ⟨some ⟨5, [1], [9], .put, 3, 1, 0, 0⟩, []⟩

/-- C2 witness: the claim at a concrete key state, in the successful-commit
case and in the idempotent fallback case. -/
theorem commitKey_spec_witness :
    commitKey c2KeyState [1] 5 10 =
      .ok ⟨none, insertWrite (commitLockValue ⟨5, [1], [9], .put, 3, 1, 0, 0⟩ 5 10) []⟩ ∧
    commitKey ⟨none, [⟨.typePut, 5, 10, [9]⟩]⟩ [1] 5 12 =
      .ok ⟨none, [⟨.typePut, 5, 10, [9]⟩]⟩ :=
  ⟨((commitKey_spec c2KeyState [1] 5 10).2 ⟨5, [1], [9], .put, 3, 1, 0, 0⟩ rfl rfl).2
      (by decide),
   by
    have h := (commitKey_spec ⟨none, [⟨.typePut, 5, 10, [9]⟩]⟩ [1] 5 12).1
      (fun l hl => by cases hl)
    rw [h]
    decide⟩

/-! ## Claim C3: `Rollback` per key -/

/-- The inserted record is among the records after insertion. -/
theorem self_mem_insertWrite (v : MvccValue) (ws : List MvccValue) :
    v ∈ insertWrite v ws := by
  induction ws with
  | nil => simp [insertWrite]
  | cons w rest ih =>
    unfold insertWrite
    split_ifs with h1 h2
    · exact List.mem_cons_self _ _
    · exact List.mem_cons_self _ _
    · exact List.mem_cons_of_mem _ ih

/-- A key state with a committed `Put` of transaction 5 at commit ts 10 and
no lock. -/
def c3Committed : KeyState := ⟨none, [⟨.typePut, 5, 10, [1]⟩]⟩

/-- C3 counterexample: when no lock matches but a committed (non-Rollback)
write record of this `start_ts` exists, `rollbackKey` does not write the
Rollback tombstone — it fails with `ErrAlreadyCommitted` and leaves the
store untouched, so the tombstone is not written "unconditionally". -/
theorem rollbackKey_cex :
    rollbackKey c3Committed 5 = .error (.alreadyCommitted 10) := by decide

/-- A successful fallback rollback always leaves a Rollback record of this
transaction among the key's write records. -/
theorem rollbackKeyFallback_rollbackRecord (ks : KeyState) (s : Nat) (ks' : KeyState)
    (h : rollbackKeyFallback ks s = .ok ks') :
    ∃ w ∈ ks'.writes, w.startTS = s ∧ w.valueType = .typeRollback := by
  unfold rollbackKeyFallback at h
  cases hg : getTxnCommitInfo ks.writes s with
  | some w =>
    rw [hg] at h
    dsimp only at h
    by_cases ht : w.valueType ≠ .typeRollback
    · rw [if_pos ht] at h
      cases h
    · rw [if_neg ht] at h
      cases h
      push_neg at ht
      refine ⟨w, List.mem_of_find?_eq_some hg, ?_, ht⟩
      have hp := List.find?_some hg
      simpa using hp
  | none =>
    rw [hg] at h
    cases h
    exact ⟨rollbackRecord s, self_mem_insertWrite _ _, rfl, rfl⟩

/-- C3 (amended): if a lock with matching `start_ts` exists, `Rollback`
deletes it and writes a Rollback tombstone at `start_ts`; otherwise, if a
non-Rollback write record of this `start_ts` exists the rollback fails
with `ErrAlreadyCommitted` and writes nothing, if a Rollback record
already exists it succeeds without writing, and if the transaction was
never prewritten the tombstone is written (keeping any unrelated lock);
hence after every successful `Rollback` a Rollback record of this
transaction exists for the key. -/
theorem rollbackKey_spec (ks : KeyState) (s : Nat) :
    (∀ l, ks.lock = some l → l.startTS = s →
      rollbackKey ks s = .ok ⟨none, insertWrite (rollbackRecord s) ks.writes⟩) ∧
    ((∀ l, ks.lock = some l → l.startTS ≠ s) →
      rollbackKey ks s =
        match getTxnCommitInfo ks.writes s with
        | some w =>
          if w.valueType ≠ .typeRollback then .error (.alreadyCommitted w.commitTS)
          else .ok ks
        | none => .ok ⟨ks.lock, insertWrite (rollbackRecord s) ks.writes⟩) ∧
    (∀ ks', rollbackKey ks s = .ok ks' →
      ∃ w ∈ ks'.writes, w.startTS = s ∧ w.valueType = .typeRollback) := by
  refine ⟨fun l hl hs => ?_, fun hmiss => ?_, fun ks' hok => ?_⟩
  · unfold rollbackKey
    rw [hl]
    dsimp only
    rw [if_pos hs]
  · unfold rollbackKey
    cases hl : ks.lock with
    | none =>
      dsimp only
      unfold rollbackKeyFallback
      rw [hl]
    | some l =>
      dsimp only
      rw [if_neg (hmiss l hl)]
      unfold rollbackKeyFallback
      rw [hl]
  · unfold rollbackKey at hok
    cases hl : ks.lock with
    | none =>
      rw [hl] at hok
      exact rollbackKeyFallback_rollbackRecord ks s ks' hok
    | some l =>
      rw [hl] at hok
      dsimp only at hok
      by_cases hs : l.startTS = s
      · rw [if_pos hs] at hok
        cases hok
        exact ⟨rollbackRecord s, self_mem_insertWrite _ _, rfl, rfl⟩
      · rw [if_neg hs] at hok
        exact rollbackKeyFallback_rollbackRecord ks s ks' hok

/-- A key state carrying a matching lock for transaction 5. -/
def c3LockState : KeyState := ⟨some ⟨5, [1], [], .put, 3, 1, 0, 0⟩, []⟩

/-- C3 witness: the amended claim at a concrete key state with a matching
lock. -/
theorem rollbackKey_spec_witness :
    rollbackKey c3LockState 5 = .ok ⟨none, insertWrite (rollbackRecord 5) []⟩ :=
  (rollbackKey_spec c3LockState 5).1 ⟨5, [1], [], .put, 3, 1, 0, 0⟩ rfl rfl

/-! ## Claim C4: `CheckTxnStatus` when the transaction left no trace -/

/-- C4 counterexample: with no lock and no write record for the
transaction, `rollback_if_not_exist = true` and
`resolving_pessimistic = true`, `CheckTxnStatus` writes nothing and
returns action `LockNotExistDoNothing` — not `LockNotExistRollback` with
a tombstone as the claim states for every such call. -/
theorem checkTxnStatus_cex :
    checkTxnStatus KeyState.empty [7] 5 1 1 true true =
      .ok (⟨0, 0, .lockNotExistDoNothing⟩, KeyState.empty) := by decide

/-- C4 (amended): when no lock with the given `start_ts` exists on the
primary and no write record of that `start_ts` exists: with
`rollback_if_not_exist = true` and `resolving_pessimistic = false` a
Rollback tombstone is written at `lock_ts` without touching any unrelated
lock on the primary, returning `(0, 0)` with action
`LockNotExistRollback`; with `resolving_pessimistic = true` nothing is
written and the action is `LockNotExistDoNothing`; with
`rollback_if_not_exist = false` the call fails with `TxnNotFound`. -/
theorem checkTxnStatus_lockNotExist (ks : KeyState) (pk : Bytes)
    (lockTS callerStartTS currentTS : Nat)
    (hl : ∀ l, ks.lock = some l → l.startTS ≠ lockTS)
    (hw : getTxnCommitInfo ks.writes lockTS = none) :
    (checkTxnStatus ks pk lockTS callerStartTS currentTS true false =
      .ok (⟨0, 0, .lockNotExistRollback⟩,
        ⟨ks.lock, insertWrite (rollbackRecord lockTS) ks.writes⟩)) ∧
    (checkTxnStatus ks pk lockTS callerStartTS currentTS true true =
      .ok (⟨0, 0, .lockNotExistDoNothing⟩, ks)) ∧
    (∀ rp : Bool, checkTxnStatus ks pk lockTS callerStartTS currentTS false rp =
      .error (.txnNotFound lockTS pk)) := by
  have hred : ∀ (rb rp : Bool),
      checkTxnStatus ks pk lockTS callerStartTS currentTS rb rp =
        checkTxnStatusFallback ks pk lockTS rb rp := by
    intro rb rp
    unfold checkTxnStatus
    cases hlk : ks.lock with
    | none => rfl
    | some l =>
      dsimp only
      rw [if_neg (hl l hlk)]
  refine ⟨?_, ?_, fun rp => ?_⟩ <;>
    rw [hred] <;> unfold checkTxnStatusFallback <;> rw [hw] <;> rfl

/-- A primary-key state carrying only an unrelated lock of transaction 3. -/
def c4KeyState : KeyState := ⟨some ⟨3, [7], [], .put, 2, 1, 0, 0⟩, []⟩

/-- C4 witness: the amended claim at a concrete state with an unrelated
lock, which the rollback branch keeps intact. -/
theorem checkTxnStatus_lockNotExist_witness :
    checkTxnStatus c4KeyState [7] 5 1 1 true false =
      .ok (⟨0, 0, .lockNotExistRollback⟩,
        ⟨some ⟨3, [7], [], .put, 2, 1, 0, 0⟩, insertWrite (rollbackRecord 5) []⟩) :=
  (checkTxnStatus_lockNotExist c4KeyState [7] 5 1 1
    (fun l hl => by cases hl; decide) rfl).1

/-! ## Claim C7: idempotence of `Prewrite` with respect to the lock set -/

/-- Applying one optional batched lock put to a key state. -/
def applyLockOpt (ks : KeyState) : Option MvccLock → KeyState
  | some l => ⟨some l, ks.writes⟩
  | none => ks

/-- The lock a batch leaves on a key: the last batched put for that key
(`leveldb.Batch` semantics). -/
def lastLock : List (Bytes × MvccLock) → Bytes → Option MvccLock
  | [], _ => none
  | p :: rest, k =>
    match lastLock rest k with
    | some l => some l
    | none => if p.1 = k then some p.2 else none

/-- The mutations of a request paired with their loop indices. -/
def idxMuts (i : Nat) : List Mutation → List (Nat × Mutation)
  | [] => []
  | m :: rest => (i, m) :: idxMuts (i + 1) rest

/-- Indexing leaves the mutations unchanged. -/
theorem idxMuts_map_snd (ms : List Mutation) : ∀ i, (idxMuts i ms).map Prod.snd = ms := by
  induction ms with
  | nil => intro i; rfl
  | cons m rest ih => intro i; simp [idxMuts, ih]

/-- Looking up a key in a one-step-extended store. -/
theorem getKeyState_cons (p : Bytes × KeyState) (rest : MvccState) (k : Bytes) :
    getKeyState (p :: rest) k = if p.1 = k then p.2 else getKeyState rest k := by
  by_cases h : p.1 = k <;> simp [getKeyState, List.find?_cons, h]

/-- Looking up a key after setting one. -/
theorem getKeyState_setKeyState (k : Bytes) (ks : KeyState) (k' : Bytes) :
    ∀ σ : MvccState,
      getKeyState (setKeyState σ k ks) k' = if k' = k then ks else getKeyState σ k' := by
  intro σ
  induction σ with
  | nil =>
    rw [show setKeyState [] k ks = [(k, ks)] from rfl, getKeyState_cons]
    by_cases h : k' = k
    · rw [if_pos h.symm, if_pos h]
    · rw [if_neg (fun hh => h hh.symm), if_neg h]
  | cons p rest ih =>
    simp only [setKeyState]
    by_cases hp : p.1 = k
    · rw [if_pos hp, getKeyState_cons, getKeyState_cons]
      by_cases h : k' = k
      · rw [if_pos h.symm, if_pos h]
      · rw [if_neg (fun hh => h hh.symm), if_neg h,
          if_neg (show ¬ p.1 = k' from by rw [hp]; exact fun hh => h hh.symm)]
    · rw [if_neg hp, getKeyState_cons, getKeyState_cons, ih]
      by_cases hpk : p.1 = k'
      · have h : ¬ k' = k := fun hh => hp (by rw [hpk, hh])
        rw [if_pos hpk, if_neg h, if_pos hpk]
      · by_cases h : k' = k
        · rw [if_neg hpk, if_pos h, if_pos h]
        · rw [if_neg hpk, if_neg h, if_neg h, if_neg hpk]

/-- What the whole batch leaves on each key: the last batched lock put for
that key wins, and only locks change (the write records are untouched). -/
theorem getKeyState_applyLockBatch (k : Bytes) :
    ∀ (bs : List (Bytes × MvccLock)) (σ : MvccState),
      getKeyState (applyLockBatch σ bs) k = applyLockOpt (getKeyState σ k) (lastLock bs k) := by
  intro bs
  induction bs with
  | nil => intro σ; rfl
  | cons p rest ih =>
    intro σ
    show getKeyState
      (applyLockBatch (setKeyState σ p.1 ⟨some p.2, (getKeyState σ p.1).writes⟩) rest) k = _
    rw [ih, getKeyState_setKeyState]
    simp only [lastLock]
    cases hrest : lastLock rest k with
    | some l =>
      by_cases h : k = p.1 <;> simp [applyLockOpt, h]
    | none =>
      dsimp only
      by_cases h : k = p.1
      · rw [if_pos h, if_pos (by rw [h])]
        simp [applyLockOpt, h]
      · rw [if_neg h, if_neg (fun hh => h hh.symm)]

/-- A key put by no batch entry is left alone. -/
theorem lastLock_none_of_not_mem (k : Bytes) :
    ∀ bs : List (Bytes × MvccLock), (∀ p ∈ bs, p.1 ≠ k) → lastLock bs k = none := by
  intro bs
  induction bs with
  | nil => intro _; rfl
  | cons p rest ih =>
    intro h
    simp only [lastLock]
    rw [ih (fun q hq => h q (List.mem_cons_of_mem _ hq))]
    rw [if_neg (h p (List.mem_cons_self _ _))]

/-- The winning batch entry of a key is among the batch entries. -/
theorem mem_of_lastLock_eq_some (k : Bytes) (l : MvccLock) :
    ∀ bs : List (Bytes × MvccLock), lastLock bs k = some l → (k, l) ∈ bs := by
  intro bs
  induction bs with
  | nil => intro h; cases h
  | cons p rest ih =>
    intro h
    simp only [lastLock] at h
    cases hrest : lastLock rest k with
    | some l' =>
      rw [hrest] at h
      dsimp only at h
      injection h with h2
      subst h2
      exact List.mem_cons_of_mem _ (ih hrest)
    | none =>
      rw [hrest] at h
      dsimp only at h
      by_cases hp : p.1 = k
      · rw [if_pos hp] at h
        injection h with h2
        have hpl : p = (k, l) := by
          cases p
          simp only at hp h2
          simp [hp, h2]
        rw [hpl]
        exact List.mem_cons_self _ _
      · rw [if_neg hp] at h
        cases h

/-- In a batch whose keys are distinct, the entry of a key is its winning
entry. -/
theorem lastLock_of_mem_nodup (k : Bytes) (l : MvccLock) :
    ∀ bs : List (Bytes × MvccLock), (bs.map Prod.fst).Nodup → (k, l) ∈ bs →
      lastLock bs k = some l := by
  intro bs
  induction bs with
  | nil => intro _ h; cases h
  | cons p rest ih =>
    intro hnod hmem
    have hnod2 : (p.1 :: rest.map Prod.fst).Nodup := by simpa using hnod
    rcases List.mem_cons.mp hmem with hp | hrest
    · have hk : p.1 = k := by rw [← hp]
      have hnone : lastLock rest k = none := by
        apply lastLock_none_of_not_mem
        intro q hq hqk
        exact (List.nodup_cons.mp hnod2).1
          (by rw [hk, ← hqk]; exact List.mem_map_of_mem Prod.fst hq)
      simp only [lastLock, hnone]
      rw [if_pos hk, ← hp]
    · have := ih (List.nodup_cons.mp hnod2).2 hrest
      simp only [lastLock, this]

/-- A batched entry produced by one mutation carries that mutation's key. -/
theorem prewriteOne_key (σ : MvccState) (req : PrewriteReq) (i : Nat) (m : Mutation)
    (p : Bytes × MvccLock) (h : (prewriteOne σ req i m).2 = some p) : p.1 = m.key := by
  unfold prewriteOne at h
  cases hpre : (if (m.op = .insert ∨ m.op = .checkNotExists) ∧ req.forUpdateTs = 0 then
      match mvccGet σ m.key req.startVersion .si req.resolvedLocks with
      | .error e => some (some e)
      | .ok (some _) => some (some (.keyAlreadyExist m.key))
      | .ok none => none
    else none : Option (Option MvccErr)) with
  | some e =>
    rw [hpre] at h
    cases h
  | none =>
    rw [hpre] at h
    dsimp only at h
    by_cases hc : m.op = .checkNotExists
    · rw [if_pos hc] at h
      cases h
    · rw [if_neg hc] at h
      cases hm : prewriteMutation (getKeyState σ m.key) m req.startVersion req.primaryLock
          req.lockTtl req.txnSize
          (!req.isPessimisticLock.isEmpty && req.isPessimisticLock.getD i false)
          req.minCommitTs req.assertionLevel with
      | error e =>
        rw [hm] at h
        cases h
      | ok o =>
        rw [hm] at h
        dsimp only at h
        cases o with
        | none => cases h
        | some l =>
          simp only [Option.map] at h
          injection h with h2
          rw [← h2]

/-- For a mutation that is neither `Insert` nor `CheckNotExists`, the loop
iteration is the bare `prewriteMutation` call. -/
theorem prewriteOne_of_plain (σ : MvccState) (req : PrewriteReq) (i : Nat) (m : Mutation)
    (h1 : m.op ≠ .insert) (h2 : m.op ≠ .checkNotExists) :
    prewriteOne σ req i m =
      match prewriteMutation (getKeyState σ m.key) m req.startVersion req.primaryLock
          req.lockTtl req.txnSize
          (!req.isPessimisticLock.isEmpty && req.isPessimisticLock.getD i false)
          req.minCommitTs req.assertionLevel with
      | .error e => (some (some e), none)
      | .ok o => (some none, o.map (fun l => (m.key, l))) := by
  unfold prewriteOne
  rw [if_neg (by tauto)]
  dsimp only
  rw [if_neg h2]

/-- The last batched put across an appended batch. -/
theorem lastLock_append (k : Bytes) :
    ∀ bs1 bs2 : List (Bytes × MvccLock),
      lastLock (bs1 ++ bs2) k =
        match lastLock bs2 k with
        | some l => some l
        | none => lastLock bs1 k := by
  intro bs1 bs2
  induction bs1 with
  | nil =>
    cases h : lastLock bs2 k <;> simp [lastLock, h]
  | cons p rest ih =>
    show lastLock (p :: (rest ++ bs2)) k = _
    simp only [lastLock, ih]
    cases h : lastLock bs2 k <;> cases h2 : lastLock rest k <;> simp [lastLock]

/-- Every key in the accumulated batch is the key of some mutation. -/
theorem prewriteLoop_batch_keys (σ : MvccState) (req : PrewriteReq) :
    ∀ (ms : List Mutation) (i : Nat) (q : Bytes × MvccLock),
      q ∈ (prewriteLoop σ req i ms).2 → q.1 ∈ ms.map Mutation.key := by
  intro ms
  induction ms with
  | nil => intro i q hq; cases hq
  | cons m rest ih =>
    intro i q hq
    show q.1 ∈ m.key :: rest.map Mutation.key
    have hq2 : q ∈ (prewriteOne σ req i m).2.toList ++ (prewriteLoop σ req (i + 1) rest).2 := hq
    rcases List.mem_append.mp hq2 with hh | hh
    · cases ho : (prewriteOne σ req i m).2 with
      | none => rw [ho] at hh; cases hh
      | some p =>
        rw [ho] at hh
        simp only [Option.toList, List.mem_singleton] at hh
        rw [hh, prewriteOne_key σ req i m p ho]
        exact List.mem_cons_self _ _
    · exact List.mem_cons_of_mem _ (ih (i + 1) q hh)

/-- An indexed mutation is one of the request's mutations. -/
theorem snd_mem_of_mem_idxMuts (ms : List Mutation) (i : Nat) (p : Nat × Mutation)
    (hp : p ∈ idxMuts i ms) : p.2 ∈ ms := by
  have := List.mem_map_of_mem Prod.snd hp
  rwa [idxMuts_map_snd] at this

/-- With pairwise-distinct mutation keys, the lock the batch leaves on a
mutation's key is exactly that mutation's own output. -/
theorem lastLock_prewriteLoop (σ' : MvccState) (req : PrewriteReq) :
    ∀ (ms : List Mutation) (i : Nat), (ms.map Mutation.key).Nodup →
      ∀ p ∈ idxMuts i ms,
        lastLock (prewriteLoop σ' req i ms).2 p.2.key =
          ((prewriteOne σ' req p.1 p.2).2).map Prod.snd := by
  intro ms
  induction ms with
  | nil => intro i _ p hp; cases hp
  | cons m rest ih =>
    intro i hnod p hp
    have hnod2 : (m.key :: rest.map Mutation.key).Nodup := by simpa using hnod
    show lastLock ((prewriteOne σ' req i m).2.toList ++
      (prewriteLoop σ' req (i + 1) rest).2) p.2.key = _
    rw [lastLock_append]
    rcases List.mem_cons.mp hp with hphead | hptail
    · subst hphead
      dsimp only
      have hnone : lastLock (prewriteLoop σ' req (i + 1) rest).2 m.key = none := by
        apply lastLock_none_of_not_mem
        intro q hq hqk
        have hmem := prewriteLoop_batch_keys σ' req rest (i + 1) q hq
        exact (List.nodup_cons.mp hnod2).1 (hqk ▸ hmem)
      rw [hnone]
      cases ho : (prewriteOne σ' req i m).2 with
      | none => simp [lastLock]
      | some q =>
        simp only [Option.toList, Option.map]
        simp only [lastLock]
        rw [if_pos (prewriteOne_key σ' req i m q ho)]
    · have ihval := ih (i + 1) (List.nodup_cons.mp hnod2).2 p hptail
      cases hll : lastLock (prewriteLoop σ' req (i + 1) rest).2 p.2.key with
      | some l =>
        rw [hll] at ihval
        rw [← ihval]
      | none =>
        rw [hll] at ihval
        dsimp only
        have hpk : p.2.key ≠ m.key := by
          intro hh
          have hmem : p.2 ∈ rest := snd_mem_of_mem_idxMuts rest (i + 1) p hptail
          exact (List.nodup_cons.mp hnod2).1
            (hh ▸ List.mem_map_of_mem Mutation.key hmem)
        rw [← ihval]
        cases ho : (prewriteOne σ' req i m).2 with
        | none => rfl
        | some q =>
          simp only [Option.toList, lastLock]
          rw [if_neg (by rw [prewriteOne_key σ' req i m q ho]; exact fun hh => hpk hh.symm)]

/-- Replaying a prewrite mutation against its own installed lock: the
idempotent-retry path returns without writing for a promoted (ordinary)
lock, and re-promotes a pessimistic lock to the identical lock, so the
key state is unchanged either way. -/
theorem prewriteMutation_own (ws : List MvccValue) (m : Mutation) (st : Nat) (pr : Bytes)
    (tt tx : Nat) (ip : Bool) (mc : Nat) (al : AssertionLevel) (a b : Nat) (u : Option Bytes)
    (htt : (if tt < a then a else tt) = a)
    (hmcKey : pr = m.key → (if mc < b then b else mc) = b)
    (hccv : checkConflictValue ws m st st false al = .ok u) :
    ∃ o', prewriteMutation ⟨some (mkPrewriteLock m st pr a tx b), ws⟩ m st pr tt tx ip mc al
        = .ok o' ∧
      applyLockOpt (⟨some (mkPrewriteLock m st pr a tx b), ws⟩ : KeyState) o' =
        ⟨some (mkPrewriteLock m st pr a tx b), ws⟩ := by
  unfold prewriteMutation
  dsimp only
  rw [if_neg (show ¬ ((mkPrewriteLock m st pr a tx b).startTS ≠ st) from fun hc => hc rfl)]
  by_cases hop : m.op = .pessimisticLock
  · have hLop : (mkPrewriteLock m st pr a tx b).op = .pessimisticLock := by
      show (if m.op = .insert then .put else m.op) = .pessimisticLock
      rw [hop]
      rfl
    rw [if_neg (not_not_intro hLop)]
    rw [hccv]
    refine ⟨_, rfl, ?_⟩
    have e1 : (mkPrewriteLock m st pr a tx b).ttl = a := rfl
    have e2 : (mkPrewriteLock m st pr a tx b).minCommitTS = (if pr = m.key then b else 0) :=
      rfl
    have hmk : mkPrewriteLock m st pr
        (if tt < (mkPrewriteLock m st pr a tx b).ttl then (mkPrewriteLock m st pr a tx b).ttl
          else tt) tx
        (if mc < (mkPrewriteLock m st pr a tx b).minCommitTS then
          (mkPrewriteLock m st pr a tx b).minCommitTS else mc) =
        mkPrewriteLock m st pr a tx b := by
      rw [e1, e2, htt]
      by_cases hpk : pr = m.key
      · subst hpk
        simp [mkPrewriteLock, hmcKey rfl]
      · simp [mkPrewriteLock, hpk]
    rw [hmk]
    rfl
  · have hLop : (mkPrewriteLock m st pr a tx b).op ≠ .pessimisticLock := by
      show (if m.op = .insert then .put else m.op) ≠ .pessimisticLock
      split_ifs with hi
      · intro hc
        cases hc
      · exact hop
    rw [if_pos hLop]
    exact ⟨none, rfl, rfl⟩

/-- Per-key idempotence of `prewriteMutation`: if it succeeds on a key
state, replaying it on the resulting key state succeeds and leaves the
key state unchanged. -/
theorem prewriteMutation_idem (ks : KeyState) (m : Mutation) (st : Nat) (pr : Bytes)
    (tt tx : Nat) (ip : Bool) (mc : Nat) (al : AssertionLevel) (o : Option MvccLock)
    (h : prewriteMutation ks m st pr tt tx ip mc al = .ok o) :
    ∃ o', prewriteMutation (applyLockOpt ks o) m st pr tt tx ip mc al = .ok o' ∧
      applyLockOpt (applyLockOpt ks o) o' = applyLockOpt ks o := by
  unfold prewriteMutation at h
  cases hlk : ks.lock with
  | some l =>
    rw [hlk] at h
    dsimp only at h
    by_cases h1 : l.startTS = st
    · rw [if_neg (not_not_intro h1)] at h
      by_cases h2 : l.op = .pessimisticLock
      · rw [if_neg (not_not_intro h2)] at h
        cases hccv : checkConflictValue ks.writes m st st false al with
        | error e =>
          rw [hccv] at h
          exact absurd h (by simp)
        | ok u =>
          rw [hccv] at h
          dsimp only at h
          injection h with h3
          subst h3
          exact prewriteMutation_own ks.writes m st pr tt tx ip mc al _ _ u
            (by split_ifs <;> omega) (fun _ => by split_ifs <;> omega) hccv
      · rw [if_pos h2] at h
        injection h with h3
        subst h3
        refine ⟨none, ?_, rfl⟩
        show prewriteMutation ks m st pr tt tx ip mc al = .ok none
        unfold prewriteMutation
        rw [hlk]
        dsimp only
        rw [if_neg (not_not_intro h1), if_pos h2]
    · rw [if_pos h1] at h
      exact absurd h (by simp)
  | none =>
    rw [hlk] at h
    dsimp only at h
    cases ip with
    | true =>
      rw [if_pos rfl] at h
      exact absurd h (by simp)
    | false =>
      rw [if_neg (by simp)] at h
      cases hccv : checkConflictValue ks.writes m st st false al with
      | error e =>
        rw [hccv] at h
        exact absurd h (by simp)
      | ok u =>
        rw [hccv] at h
        dsimp only at h
        injection h with h3
        subst h3
        exact prewriteMutation_own ks.writes m st pr tt tx false mc al tt mc u
          (by split_ifs <;> omega) (fun _ => by split_ifs <;> omega) hccv

/-- Replaying the mutation loop: if the original run of the loop succeeded
on `σ`, and `σS` agrees with `σ` on every mutation's key up to that
mutation's own already-applied lock put, then the replayed loop succeeds
and leaves every mutation's key in the same state as the original run. -/
theorem prewriteLoop_replay (σ σS : MvccState) (req : PrewriteReq) :
    ∀ (ms : List Mutation) (i : Nat),
    (∀ m ∈ ms, m.op ≠ .insert ∧ m.op ≠ .checkNotExists) →
    (prewriteLoop σ req i ms).1.any Option.isSome = false →
    (∀ p ∈ idxMuts i ms,
      getKeyState σS p.2.key = getKeyState σ p.2.key ∨
      getKeyState σS p.2.key =
        applyLockOpt (getKeyState σ p.2.key) ((prewriteOne σ req p.1 p.2).2.map Prod.snd)) →
    (prewriteLoop σS req i ms).1.any Option.isSome = false ∧
    (∀ p ∈ idxMuts i ms,
      applyLockOpt (getKeyState σS p.2.key) ((prewriteOne σS req p.1 p.2).2.map Prod.snd) =
        applyLockOpt (getKeyState σ p.2.key) ((prewriteOne σ req p.1 p.2).2.map Prod.snd)) := by
  intro ms
  induction ms with
  | nil =>
    intro i _ _ _
    refine ⟨rfl, fun p hp => ?_⟩
    simp [idxMuts] at hp
  | cons m rest ih =>
    intro i hops hsucc hS
    have hopm := hops m (List.mem_cons_self _ _)
    have hsucc1 : ((prewriteOne σ req i m).1.toList).any Option.isSome = false ∧
        (prewriteLoop σ req (i + 1) rest).1.any Option.isSome = false := by
      have hh : ((prewriteOne σ req i m).1.toList ++
          (prewriteLoop σ req (i + 1) rest).1).any Option.isSome = false := hsucc
      rw [List.any_append] at hh
      simpa using hh
    cases hm : prewriteMutation (getKeyState σ m.key) m req.startVersion req.primaryLock
        req.lockTtl req.txnSize
        (!req.isPessimisticLock.isEmpty && req.isPessimisticLock.getD i false)
        req.minCommitTs req.assertionLevel with
    | error e =>
      exfalso
      have h1 := hsucc1.1
      rw [prewriteOne_of_plain σ req i m hopm.1 hopm.2, hm] at h1
      simp at h1
    | ok o =>
      have honeσ : prewriteOne σ req i m = (some none, o.map (fun l => (m.key, l))) := by
        rw [prewriteOne_of_plain σ req i m hopm.1 hopm.2, hm]
      have hmapsnd : ((o.map (fun l => (m.key, l))).map Prod.snd) = o := by
        cases o <;> rfl
      have hksS : getKeyState σS m.key = getKeyState σ m.key ∨
          getKeyState σS m.key = applyLockOpt (getKeyState σ m.key) o := by
        rcases hS (i, m) (List.mem_cons_self _ _) with hA | hB
        · exact Or.inl hA
        · right
          rw [hB, honeσ]
          dsimp only
          rw [hmapsnd]
      have hreplay : ∃ o', prewriteMutation (getKeyState σS m.key) m req.startVersion
          req.primaryLock req.lockTtl req.txnSize
          (!req.isPessimisticLock.isEmpty && req.isPessimisticLock.getD i false)
          req.minCommitTs req.assertionLevel = .ok o' ∧
          applyLockOpt (getKeyState σS m.key) o' = applyLockOpt (getKeyState σ m.key) o := by
        rcases hksS with hA | hB
        · refine ⟨o, ?_, ?_⟩
          · rw [hA]
            exact hm
          · rw [hA]
        · obtain ⟨o', h1, h2⟩ := prewriteMutation_idem _ m _ _ _ _ _ _ _ o hm
          refine ⟨o', ?_, ?_⟩
          · rw [hB]
            exact h1
          · rw [hB]
            exact h2
      obtain ⟨o', ho'1, ho'2⟩ := hreplay
      have honeσS : prewriteOne σS req i m = (some none, o'.map (fun l => (m.key, l))) := by
        rw [prewriteOne_of_plain σS req i m hopm.1 hopm.2, ho'1]
      have hrest := ih (i + 1) (fun m' hm' => hops m' (List.mem_cons_of_mem _ hm'))
        hsucc1.2 (fun p hp => hS p (List.mem_cons_of_mem _ hp))
      constructor
      · show ((prewriteOne σS req i m).1.toList ++
          (prewriteLoop σS req (i + 1) rest).1).any Option.isSome = false
        rw [honeσS, List.any_append]
        simp [hrest.1]
      · intro p hp
        rcases List.mem_cons.mp hp with hphead | hptail
        · subst hphead
          dsimp only
          rw [honeσ, honeσS]
          dsimp only
          rw [hmapsnd, show ((o'.map (fun l => (m.key, l))).map Prod.snd) = o' from
            by cases o' <;> rfl]
          exact ho'2
        · exact hrest.2 p hptail

/-- The error list of `Prewrite` is the loop's error list, whether or not
the batch is applied. -/
theorem mvccPrewrite_fst (req : PrewriteReq) (σ : MvccState) :
    (mvccPrewrite req σ).1 = (prewriteLoop σ req 0 req.mutations).1 := by
  unfold mvccPrewrite
  dsimp only
  split <;> rfl

/-- On a fully successful `Prewrite`, the resulting store is the batch
applied to the input store. -/
theorem mvccPrewrite_snd_of_noErr (req : PrewriteReq) (σ : MvccState)
    (h : (prewriteLoop σ req 0 req.mutations).1.any Option.isSome = false) :
    (mvccPrewrite req σ).2 = applyLockBatch σ (prewriteLoop σ req 0 req.mutations).2 := by
  unfold mvccPrewrite
  dsimp only
  rw [if_neg (by simp [h])]

/-- The keys of the accumulated batch, in order, form a sublist of the
mutation keys. -/
theorem prewriteLoop_batch_keys_sublist (σ : MvccState) (req : PrewriteReq) :
    ∀ (ms : List Mutation) (i : Nat),
      List.Sublist ((prewriteLoop σ req i ms).2.map Prod.fst) (ms.map Mutation.key) := by
  intro ms
  induction ms with
  | nil => intro i; exact List.Sublist.refl _
  | cons m rest ih =>
    intro i
    show List.Sublist
      (((prewriteOne σ req i m).2.toList ++ (prewriteLoop σ req (i + 1) rest).2).map
        Prod.fst) (m.key :: rest.map Mutation.key)
    rw [List.map_append]
    cases ho : (prewriteOne σ req i m).2 with
    | none =>
      show List.Sublist ([] ++ ((prewriteLoop σ req (i + 1) rest).2.map Prod.fst)) _
      rw [List.nil_append]
      exact (ih (i + 1)).cons m.key
    | some q =>
      show List.Sublist ([q.1] ++ ((prewriteLoop σ req (i + 1) rest).2.map Prod.fst)) _
      rw [prewriteOne_key σ req i m q ho]
      exact (ih (i + 1)).cons₂ m.key

/-- C7 (amended): for a prewrite request whose mutations have
pairwise-distinct keys and contain no `Insert` or `CheckNotExists`
operation, if `Prewrite` fully succeeds on a store, then replaying the
identical request on any store obtained by applying a subset (sublist) of
the accumulated lock puts succeeds again and leaves every key — in
particular every lock record — exactly as a single full completion of the
request does. -/
theorem mvccPrewrite_idempotent (req : PrewriteReq) (σ : MvccState)
    (hdist : (req.mutations.map Mutation.key).Nodup)
    (hops : ∀ m ∈ req.mutations, m.op ≠ .insert ∧ m.op ≠ .checkNotExists)
    (hsucc : (mvccPrewrite req σ).1.any Option.isSome = false)
    (batch' : List (Bytes × MvccLock))
    (hsub : List.Sublist batch' (prewriteLoop σ req 0 req.mutations).2) :
    (mvccPrewrite req (applyLockBatch σ batch')).1.any Option.isSome = false ∧
    (∀ k, getKeyState (mvccPrewrite req (applyLockBatch σ batch')).2 k =
      getKeyState (mvccPrewrite req σ).2 k) := by
  have hloopsucc : (prewriteLoop σ req 0 req.mutations).1.any Option.isSome = false := by
    rw [← mvccPrewrite_fst]
    exact hsucc
  have hbkeys : ∀ q ∈ (prewriteLoop σ req 0 req.mutations).2,
      q.1 ∈ req.mutations.map Mutation.key :=
    fun q hq => prewriteLoop_batch_keys σ req req.mutations 0 q hq
  have hnodbatch : (((prewriteLoop σ req 0 req.mutations).2).map Prod.fst).Nodup :=
    (prewriteLoop_batch_keys_sublist σ req req.mutations 0).nodup hdist
  have hSview : ∀ k, getKeyState (applyLockBatch σ batch') k =
      applyLockOpt (getKeyState σ k) (lastLock batch' k) :=
    fun k => getKeyState_applyLockBatch k batch' σ
  have hsubLL : ∀ k l, lastLock batch' k = some l →
      lastLock (prewriteLoop σ req 0 req.mutations).2 k = some l := by
    intro k l hll
    exact lastLock_of_mem_nodup k l _ hnodbatch
      (hsub.subset (mem_of_lastLock_eq_some k l batch' hll))
  have hHS : ∀ p ∈ idxMuts 0 req.mutations,
      getKeyState (applyLockBatch σ batch') p.2.key = getKeyState σ p.2.key ∨
      getKeyState (applyLockBatch σ batch') p.2.key =
        applyLockOpt (getKeyState σ p.2.key)
          ((prewriteOne σ req p.1 p.2).2.map Prod.snd) := by
    intro p hp
    rw [hSview p.2.key]
    cases hll : lastLock batch' p.2.key with
    | none => exact Or.inl rfl
    | some l =>
      right
      have h3 := lastLock_prewriteLoop σ req req.mutations 0 hdist p hp
      rw [hsubLL _ _ hll] at h3
      rw [← h3]
  have hcore := prewriteLoop_replay σ (applyLockBatch σ batch') req req.mutations 0
    hops hloopsucc hHS
  refine ⟨by rw [mvccPrewrite_fst]; exact hcore.1, fun k => ?_⟩
  rw [mvccPrewrite_snd_of_noErr req (applyLockBatch σ batch') hcore.1,
    mvccPrewrite_snd_of_noErr req σ hloopsucc,
    getKeyState_applyLockBatch k (prewriteLoop (applyLockBatch σ batch') req 0
      req.mutations).2 (applyLockBatch σ batch'),
    getKeyState_applyLockBatch k (prewriteLoop σ req 0 req.mutations).2 σ]
  by_cases hmem : k ∈ req.mutations.map Mutation.key
  · obtain ⟨m0, hm0, hkeq⟩ := List.mem_map.mp hmem
    have hm0idx : m0 ∈ (idxMuts 0 req.mutations).map Prod.snd := by
      rw [idxMuts_map_snd]
      exact hm0
    obtain ⟨p, hp, hpm⟩ := List.mem_map.mp hm0idx
    have hkeq' : p.2.key = k := by rw [hpm, hkeq]
    have hAll2 := lastLock_prewriteLoop (applyLockBatch σ batch') req req.mutations 0
      hdist p hp
    have hAll1 := lastLock_prewriteLoop σ req req.mutations 0 hdist p hp
    rw [hkeq'] at hAll2 hAll1
    rw [hAll2, hAll1]
    have hcp := hcore.2 p hp
    rw [hkeq'] at hcp
    exact hcp
  · have hnone2 : lastLock (prewriteLoop (applyLockBatch σ batch') req 0
        req.mutations).2 k = none := by
      apply lastLock_none_of_not_mem
      intro q hq hqk
      exact hmem (hqk ▸ prewriteLoop_batch_keys (applyLockBatch σ batch') req
        req.mutations 0 q hq)
    have hnone1 : lastLock (prewriteLoop σ req 0 req.mutations).2 k = none := by
      apply lastLock_none_of_not_mem
      intro q hq hqk
      exact hmem (hqk ▸ hbkeys q hq)
    rw [hnone2, hnone1]
    show getKeyState (applyLockBatch σ batch') k = getKeyState σ k
    rw [hSview k]
    cases hll : lastLock batch' k with
    | none => rfl
    | some l =>
      exfalso
      exact hmem (hbkeys (k, l) (hsub.subset (mem_of_lastLock_eq_some k l batch' hll)))

/-- A prewrite request with an `Insert` mutation on key `[1]` (the primary)
and a `Put` on key `[2]`. -/
def c7Req : PrewriteReq :=
  { mutations := [⟨.insert, [1], [7], .assertNone⟩, ⟨.put, [2], [8], .assertNone⟩]
  , primaryLock := [1], startVersion := 5, forUpdateTs := 0, lockTtl := 3, txnSize := 2
  , isPessimisticLock := [], minCommitTs := 0, assertionLevel := .off, resolvedLocks := [] }

/-- The store state after completing only the first (Insert) mutation of
`c7Req` on the empty store. -/
def c7Partial : MvccState :=
  applyLockBatch [] ((prewriteLoop [] c7Req 0 c7Req.mutations).2.take 1)

/-- C7 counterexample: `c7Req` fully succeeds on the empty store, but
replaying it on the state where only its own first mutation completed
fails (the Insert pre-check reads the transaction's own lock as a
`Locked` error), so the batch is not applied and key `[2]` never
receives its lock — the final lock set differs from a full completion. -/
theorem mvccPrewrite_not_idempotent_cex :
    (mvccPrewrite c7Req []).1.any Option.isSome = false ∧
    (mvccPrewrite c7Req c7Partial).1.any Option.isSome = true ∧
    (getKeyState (mvccPrewrite c7Req c7Partial).2 [2]).lock ≠
      (getKeyState (mvccPrewrite c7Req []).2 [2]).lock := by decide

/-- A prewrite request with two plain `Put` mutations on distinct keys. -/
def c7WitnessReq : PrewriteReq :=
  { mutations := [⟨.put, [1], [7], .assertNone⟩, ⟨.put, [2], [8], .assertNone⟩]
  , primaryLock := [1], startVersion := 5, forUpdateTs := 0, lockTtl := 3, txnSize := 2
  , isPessimisticLock := [], minCommitTs := 0, assertionLevel := .off, resolvedLocks := [] }

/-- C7 witness: the amended idempotence at a concrete request, replaying on
the fully completed state. -/
theorem mvccPrewrite_idempotent_witness :
    (mvccPrewrite c7WitnessReq (applyLockBatch []
        (prewriteLoop [] c7WitnessReq 0 c7WitnessReq.mutations).2)).1.any Option.isSome
      = false ∧
    getKeyState (mvccPrewrite c7WitnessReq (applyLockBatch []
        (prewriteLoop [] c7WitnessReq 0 c7WitnessReq.mutations).2)).2 [2] =
      getKeyState (mvccPrewrite c7WitnessReq []).2 [2] :=
  ⟨(mvccPrewrite_idempotent c7WitnessReq [] (by decide) (by decide) (by decide) _
      (List.Sublist.refl _)).1,
   (mvccPrewrite_idempotent c7WitnessReq [] (by decide) (by decide) (by decide) _
      (List.Sublist.refl _)).2 [2]⟩
